import Mathlib

/-!
Shallow embedding of the `ygrebnov/metrics` Go package (BasicProvider:
a lazy, deduplicating, in-memory registry of metric instruments with
metadata snapshotting and invariant reporting).

Modelling conventions:
* Go maps (`sync.Map`, `map[string]string`) are association lists with
  store-overwrites semantics (`assocStore` / `assocGet`).
* Heap identity (pointer identity of instruments, of `atomic.Int32`
  cells and of `map[string]string` values) is modelled by natural-number
  references drawn from a single allocator `next`; the registry state
  carries explicit reference-indexed stores for histograms, int32 cells
  and attribute maps.
* `float64` is modelled exactly: an extended rational (`F`) with the two
  infinities used by the histogram sentinels.  Rounding and NaN are
  outside the model; all claim instances involve exactly representable
  values.
* Operations run sequentially; the per-key mutexes always succeed, so a
  lock/unlock pair is a no-op and `LoadOrStore` / `Delete` on the `inits`
  table are ordinary map operations.
-/

/-- Association list lookup: entry with the given key (Go map read). -/
def assocGet {κ ν : Type} [DecidableEq κ] : List (κ × ν) → κ → Option ν
  | [], _ => none
  | p :: t, k => if p.1 = k then some p.2 else assocGet t k

/-- Association list store with overwrite semantics (Go map write). -/
def assocStore {κ ν : Type} [DecidableEq κ] : List (κ × ν) → κ → ν → List (κ × ν)
  | [], k, v => [(k, v)]
  | p :: t, k, v => if p.1 = k then (k, v) :: t else p :: assocStore t k v

/-- Association list delete (Go map delete). -/
def assocErase {κ ν : Type} [DecidableEq κ] : List (κ × ν) → κ → List (κ × ν)
  | [], _ => []
  | p :: t, k => if p.1 = k then assocErase t k else p :: assocErase t k

/-- Exact model of the `float64` values the histogram manipulates: a rational
together with the two infinities produced by `math.Inf(1)` / `math.Inf(-1)`.
Rounding and NaN are outside the model. -/
inductive F : Type
  | negInf : F
  | fin (q : ℚ) : F
  | posInf : F
deriving DecidableEq

/-- Go `a < b` on float64 (no NaN in the model, so a total comparison). -/
def F.blt : F → F → Bool
  | .negInf, .negInf => false
  | .negInf, _ => true
  | .fin _, .negInf => false
  | .fin a, .fin b => a < b
  | .fin _, .posInf => true
  | .posInf, _ => false

/-- Go `a <= b` on float64 (no NaN in the model). -/
def F.ble : F → F → Bool
  | .negInf, _ => true
  | .fin _, .negInf => false
  | .fin a, .fin b => a ≤ b
  | .fin _, .posInf => true
  | .posInf, .posInf => true
  | .posInf, _ => false

/-- Go `a + b` on float64, exact on finite values; the unused NaN-producing
case `(-inf) + (+inf)` is mapped to an arbitrary value. -/
def F.add : F → F → F
  | .fin a, .fin b => .fin (a + b)
  | .negInf, .posInf => .fin 0
  | .posInf, .negInf => .fin 0
  | .negInf, _ => .negInf
  | _, .negInf => .negInf
  | .posInf, _ => .posInf
  | _, .posInf => .posInf

/-- Go `s / float64(n)` for a positive integer count `n`. -/
def F.divByNat : F → Nat → F
  | .fin a, n => .fin (a / n)
  | .negInf, _ => .negInf
  | .posInf, _ => .posInf

/-- Whether the value is finite (neither infinity). -/
def F.isFinite : F → Bool
  | .fin _ => true
  | _ => false

/-- BasicHistogram state: count, sum and the min/max trackers
(`src/basic.go`, struct `BasicHistogram`; the mutex is a no-op in the
sequential model). -/
structure BasicHistogram : Type where
  count : Int
  sum : F
  min : F
  max : F
deriving DecidableEq

/-- Record adds a measurement to the histogram (`BasicHistogram.Record`). -/
def BasicHistogram.Record (h : BasicHistogram) (v : F) : BasicHistogram :=
  let h1 :=
    if h.count = 0 then
      { h with min := v, max := v }
    else
      let h' := if F.blt v h.min then { h with min := v } else h
      if F.blt h'.max v then { h' with max := v } else h'
  { h1 with count := h1.count + 1, sum := F.add h1.sum v }

/-- HistSnapshot is an immutable snapshot of a BasicHistogram
(`src/basic.go`, struct `HistSnapshot`). -/
structure HistSnapshot : Type where
  Count : Int
  Sum : F
  Min : F
  Max : F
  Mean : F
deriving DecidableEq

/-- Snapshot returns a copy of the histogram state at the time of call
(`BasicHistogram.Snapshot`). -/
def BasicHistogram.Snapshot (h : BasicHistogram) : HistSnapshot :=
  let mean := if h.count > 0 then F.divByNat h.sum h.count.toNat else F.fin 0
  ⟨h.count, h.sum, h.min, h.max, mean⟩

/-- Instrument kind (`provider.go`, `InstrumentType` with its three constants). -/
inductive InstrumentType : Type
  | counter
  | updown
  | histogram
deriving DecidableEq

/-- The string value of the corresponding `InstrumentType` constant
("counter", "updown", "histogram"). -/
def InstrumentType.typeString : InstrumentType → String
  | .counter => "counter"
  | .updown => "updown"
  | .histogram => "histogram"

/-- Modelled from the spec: the `InstrumentKey` value type is not under
`src/` (only its callers are).  Per the spec it is the pair
(Kind, Name), immutable, compared field-wise. -/
structure InstrumentKey : Type where
  typ : InstrumentType
  name : String
deriving DecidableEq

/-- Modelled from the spec: constructor for `InstrumentKey` used by all
callers in `src/basic.go`. -/
def NewInstrumentKey (t : InstrumentType) (n : String) : InstrumentKey :=
  ⟨t, n⟩

/-- Modelled from the spec: `InstrumentKey.String`, the compound
"typ:name" rendering used in invariant-violation messages. -/
def InstrumentKey.keyString (k : InstrumentKey) : String :=
  k.typ.typeString ++ ":" ++ k.name

/-- Attribute maps (`map[string]string` contents). -/
abbrev AttrMap := List (String × String)

/-- InstrumentConfig carries optional instrument metadata (`provider.go`).
`Attributes` is the identity of a `map[string]string` in the heap:
`none` is Go's nil map, `some r` references the attribute heap. -/
structure InstrumentConfig : Type where
  Description : String
  Unit : String
  Attributes : Option Nat
deriving DecidableEq

/-- The zero value `InstrumentConfig{}`. -/
def emptyConfig : InstrumentConfig := ⟨"", "", none⟩

/-- An instrument option closure (`provider.go`): the values it captured.
`nilOpt` is a nil `InstrumentOption`, skipped by `applyOptions`.
`withAttributes` carries the contents of the caller's map at application
time (`WithAttributes` only reads the map, copying entries). -/
inductive InstrumentOption : Type
  | nilOpt
  | withDescription (desc : String)
  | withUnit (unit : String)
  | withAttributes (attrs : AttrMap)
deriving DecidableEq

/-- Modelled from the spec: `InstrumentEntry` (returned by `ListMetadata`)
is not under `src/`; per usage it is {Type, Name, Config}. -/
structure InstrumentEntry : Type where
  typ : InstrumentType
  name : String
  Config : InstrumentConfig
deriving DecidableEq

/-- A key of the `meta` sync.Map: `interface{}` holding either an
`InstrumentKey` or (in tests) some other value such as a string. -/
inductive MetaKey : Type
  | ik (k : InstrumentKey)
  | str (s : String)
deriving DecidableEq

/-- A value of the `meta` sync.Map: an `InstrumentConfig`, the registry's
`*atomic.Int32` rate-limit cell (by reference), or (in tests) some other
value such as a string. -/
inductive MetaVal : Type
  | config (c : InstrumentConfig)
  | cell (r : Nat)
  | str (s : String)
deriving DecidableEq

/-- The logging collaborator held by the provider: the no-op sink
(`src/unnamed/part_005`) or an injected one. -/
inductive LoggerKind : Type
  | noop
  | custom
deriving DecidableEq

/-- A provider option closure (`src/basic.go` / `src/unnamed/part_001`);
`nilOpt` is a nil option, skipped by the constructor. -/
inductive BasicProviderOption : Type
  | nilOpt
  | withInitCleanupDisabled
  | withBasicProviderLogger (l : Option LoggerKind)
deriving DecidableEq

/-- The `basicProviderConfig` built by the constructor. -/
structure BasicProviderConfig : Type where
  doNotCleanupInits : Bool
  logger : Option LoggerKind
deriving DecidableEq

/-- BasicProvider state (`src/basic.go`): the per-type instrument tables
(name to instrument reference), the metadata table, the per-key init
mutex table (key to mutex reference), plus the explicit heaps backing
reference identity: histogram states, `atomic.Int32` cells and
attribute maps.  `next` is the allocator for fresh references, `log`
the sequence of `Warnf` calls made on the logging collaborator, and
`debug` the build-tag-selected strict mode (`isDebugBuild`, whose
`raceBuild`/`debugBuild` flags are not under `src/`). -/
structure BasicProvider : Type where
  doNotCleanupInits : Bool
  logger : LoggerKind
  debug : Bool
  counters : List (String × Nat)
  updowns : List (String × Nat)
  histograms : List (String × Nat)
  meta : List (MetaKey × MetaVal)
  inits : List (InstrumentKey × Nat)
  hists : List (Nat × BasicHistogram)
  cells : List (Nat × Int)
  attrHeap : List (Nat × AttrMap)
  next : Nat
  log : List String
deriving DecidableEq

/-- NewBasicProvider constructs a new BasicProvider
(`src/unnamed/part_006`, the current provider core: a nil configured
logger is replaced by the no-op logger).  `debug` stands for the
build-tag flags, `false` being the default (lenient) build. -/
def NewBasicProvider (debug : Bool) (opts : List BasicProviderOption) : BasicProvider :=
  let cfg : BasicProviderConfig :=
    opts.foldl
      (fun c o =>
        match o with
        | .nilOpt => c
        | .withInitCleanupDisabled => { c with doNotCleanupInits := true }
        | .withBasicProviderLogger l => { c with logger := l })
      ⟨false, none⟩
  let l := match cfg.logger with
    | none => LoggerKind.noop
    | some lg => lg
  ⟨cfg.doNotCleanupInits, l, debug, [], [], [], [], [], [], [], [], 0, []⟩

/-- One iteration of the `applyOptions` loop: apply a single option
closure to the config being built, threading the attribute heap since
`WithAttributes` allocates and fills the config's attributes map. -/
def applyOption (acc : BasicProvider × InstrumentConfig) (o : InstrumentOption) :
    BasicProvider × InstrumentConfig :=
  let s := acc.1
  let cfg := acc.2
  match o with
  | .nilOpt => (s, cfg)
  | .withDescription d => (s, { cfg with Description := d })
  | .withUnit u => (s, { cfg with Unit := u })
  | .withAttributes m =>
    if m.length = 0 then (s, cfg)
    else
      match cfg.Attributes with
      | none =>
        let r := s.next
        let contents := m.foldl (fun mm kv => assocStore mm kv.1 kv.2) []
        ({ s with attrHeap := assocStore s.attrHeap r contents, next := r + 1 },
         { cfg with Attributes := some r })
      | some r =>
        let cur := (assocGet s.attrHeap r).getD []
        let contents := m.foldl (fun mm kv => assocStore mm kv.1 kv.2) cur
        ({ s with attrHeap := assocStore s.attrHeap r contents }, cfg)

/-- applyOptions builds InstrumentConfig from options (`src/basic.go`). -/
def applyOptions (p : BasicProvider) (opts : List InstrumentOption) :
    BasicProvider × InstrumentConfig :=
  opts.foldl applyOption (p, emptyConfig)

/-- keyMu returns a per-key mutex for the given key, creating one if
necessary (`sync.Map.LoadOrStore` on `inits`). -/
def keyMu (p : BasicProvider) (key : InstrumentKey) : BasicProvider × Nat :=
  match assocGet p.inits key with
  | some m => (p, m)
  | none =>
    ({ p with inits := assocStore p.inits key p.next, next := p.next + 1 }, p.next)

/-- get retrieves an existing instrument by key (`BasicProvider.get`). -/
def BasicProvider.get (p : BasicProvider) (key : InstrumentKey) : Option Nat :=
  match key.typ with
  | .counter => assocGet p.counters key.name
  | .updown => assocGet p.updowns key.name
  | .histogram => assocGet p.histograms key.name

/-- create constructs and stores a new instance into the appropriate map
(`BasicProvider.create`); a histogram starts with `min = math.Inf(1)`
and `max = math.Inf(-1)`. -/
def BasicProvider.create (p : BasicProvider) (key : InstrumentKey) :
    BasicProvider × Nat :=
  let r := p.next
  match key.typ with
  | .counter =>
    ({ p with counters := assocStore p.counters key.name r, next := r + 1 }, r)
  | .updown =>
    ({ p with updowns := assocStore p.updowns key.name r, next := r + 1 }, r)
  | .histogram =>
    ({ p with histograms := assocStore p.histograms key.name r,
              hists := assocStore p.hists r ⟨0, .fin 0, .posInf, .negInf⟩,
              next := r + 1 }, r)

/-- getOrCreate: fast read path, option application off-lock, per-key
mutex, re-check, then store metadata and create the instrument, then
optional cleanup of the init mutex entry (`BasicProvider.getOrCreate`). -/
def BasicProvider.getOrCreate (p : BasicProvider) (key : InstrumentKey)
    (opts : List InstrumentOption) : BasicProvider × Nat :=
  match p.get key with
  | some v => (p, v)
  | none =>
    let s1cfg := applyOptions p opts
    let s1 := s1cfg.1
    let cfg := s1cfg.2
    let s2 := (keyMu s1 key).1
    match s2.get key with
    | some v => (s2, v)
    | none =>
      let s3 := { s2 with meta := assocStore s2.meta (.ik key) (.config cfg) }
      let s4r := s3.create key
      let s4 := s4r.1
      let s5 := if s4.doNotCleanupInits then s4
                else { s4 with inits := assocErase s4.inits key }
      (s5, s4r.2)

/-- Counter returns a monotonic counter instrument for the given name
(`BasicProvider.Counter`). -/
def BasicProvider.Counter (p : BasicProvider) (name : String)
    (opts : List InstrumentOption) : BasicProvider × Nat :=
  p.getOrCreate (NewInstrumentKey .counter name) opts

/-- UpDownCounter returns an up/down counter instrument for the given name
(`BasicProvider.UpDownCounter`). -/
def BasicProvider.UpDownCounter (p : BasicProvider) (name : String)
    (opts : List InstrumentOption) : BasicProvider × Nat :=
  p.getOrCreate (NewInstrumentKey .updown name) opts

/-- Histogram returns a histogram instrument for the given name
(`BasicProvider.Histogram`). -/
def BasicProvider.Histogram (p : BasicProvider) (name : String)
    (opts : List InstrumentOption) : BasicProvider × Nat :=
  p.getOrCreate (NewInstrumentKey .histogram name) opts

/-- copyConfig makes a defensive copy of InstrumentConfig, allocating a
fresh attributes map with the same contents when the source map is
non-empty (`copyConfig` in `src/basic.go`). -/
def copyConfig (p : BasicProvider) (c : InstrumentConfig) :
    BasicProvider × InstrumentConfig :=
  let out : InstrumentConfig := ⟨c.Description, c.Unit, none⟩
  match c.Attributes with
  | none => (p, out)
  | some r =>
    let m := (assocGet p.attrHeap r).getD []
    if m.length = 0 then (p, out)
    else
      let nr := p.next
      ({ p with attrHeap := assocStore p.attrHeap nr m, next := nr + 1 },
       { out with Attributes := some nr })

/-- Two's-complement wrap of an `int32` (`atomic.Int32.Add`). -/
def wrap32 (x : Int) : Int := (x + 2 ^ 31) % 2 ^ 32 - 2 ^ 31

/-- The reserved key under which the rate-limit cell is stored in the
`meta` table. -/
def reservedKey : InstrumentKey := ⟨.counter, "__invariant_counter__"⟩

/-- Outcome of `reportInvariantViolation`: a debug-build panic, or a
normal return recording whether `logger.Warnf` was called. -/
inductive ReportResult : Type
  | panicked (msg : String)
  | ret (logged : Bool)
deriving DecidableEq

/-- reportInvariantViolation (`src/basic.go`): bumps the `*atomic.Int32`
stored in the `meta` table under the reserved counter key (creating it
when absent; when the reserved slot holds something that is not a cell,
the type assertion fails and `count` keeps its zero value), suppresses
reports once the counter exceeds 10, panics in debug builds, and
otherwise logs a warning. -/
def BasicProvider.reportInvariantViolation (p : BasicProvider) (kind : String)
    (key : InstrumentKey) : BasicProvider × ReportResult :=
  let maxReports : Int := 10
  let s1count :=
    match assocGet p.meta (.ik reservedKey) with
    | some (.cell r) =>
      let v := wrap32 ((assocGet p.cells r).getD 0 + 1)
      (({ p with cells := assocStore p.cells r v } : BasicProvider), v)
    | some _ => (p, (0 : Int))
    | none =>
      let r := p.next
      let s := { p with cells := assocStore p.cells r 0,
                        meta := assocStore p.meta (.ik reservedKey) (.cell r),
                        next := r + 1 }
      let v := wrap32 ((assocGet s.cells r).getD 0 + 1)
      ({ s with cells := assocStore s.cells r v }, v)
  let s1 := s1count.1
  if s1count.2 > maxReports then (s1, .ret false)
  else
    let msg := "[metrics] invariant violation: " ++ kind ++ " for " ++ key.keyString
    if s1.debug then (s1, .panicked msg)
    else ({ s1 with log := s1.log ++ [msg] }, .ret true)

/-- Result of a Go call that can panic; a panic carries the state at the
moment of unwinding (mutations already performed persist). -/
inductive GoRes (α : Type) : Type
  | panicked (s : BasicProvider) (msg : String)
  | ok (a : α)

/-- getInstrumentMeta (`src/basic.go` / `src/basic_inspector.go`): load
the metadata for a key, reporting an invariant violation when it is
missing or has the wrong dynamic type, and returning a defensive copy
on the happy path. -/
def BasicProvider.getInstrumentMeta (p : BasicProvider) (key : InstrumentKey) :
    GoRes (BasicProvider × InstrumentConfig × Bool) :=
  match assocGet p.meta (.ik key) with
  | none =>
    match p.reportInvariantViolation (key.typ.typeString ++ "_meta_missing") key with
    | (s1, .panicked m) => .panicked s1 m
    | (s1, .ret _) => .ok (s1, emptyConfig, false)
  | some (.config c) =>
    let s1cc := copyConfig p c
    .ok (s1cc.1, s1cc.2, true)
  | some _ =>
    match p.reportInvariantViolation (key.typ.typeString ++ "_meta_type") key with
    | (s1, .panicked m) => .panicked s1 m
    | (s1, .ret _) => .ok (s1, emptyConfig, false)

/-- CounterWithMeta (`src/basic.go` / `src/basic_inspector.go`): take the
per-key init mutex, load the instrument, then load the metadata.  In
the typed model the instrument table always holds counter references,
so the wrong-dynamic-type branch of the source is structurally
absent. -/
def BasicProvider.CounterWithMeta (p : BasicProvider) (name : String) :
    GoRes (BasicProvider × Option Nat × InstrumentConfig × Bool) :=
  let key := NewInstrumentKey .counter name
  let s1 := (keyMu p key).1
  match assocGet s1.counters name with
  | none => .ok (s1, none, emptyConfig, false)
  | some inst =>
    match s1.getInstrumentMeta key with
    | .panicked s m => .panicked s m
    | .ok (s2, c, okOverall) => .ok (s2, some inst, c, okOverall)

/-- UpDownCounterWithMeta: as `CounterWithMeta` for the updown table. -/
def BasicProvider.UpDownCounterWithMeta (p : BasicProvider) (name : String) :
    GoRes (BasicProvider × Option Nat × InstrumentConfig × Bool) :=
  let key := NewInstrumentKey .updown name
  let s1 := (keyMu p key).1
  match assocGet s1.updowns name with
  | none => .ok (s1, none, emptyConfig, false)
  | some inst =>
    match s1.getInstrumentMeta key with
    | .panicked s m => .panicked s m
    | .ok (s2, c, okOverall) => .ok (s2, some inst, c, okOverall)

/-- HistogramWithMeta: as `CounterWithMeta` for the histogram table. -/
def BasicProvider.HistogramWithMeta (p : BasicProvider) (name : String) :
    GoRes (BasicProvider × Option Nat × InstrumentConfig × Bool) :=
  let key := NewInstrumentKey .histogram name
  let s1 := (keyMu p key).1
  match assocGet s1.histograms name with
  | none => .ok (s1, none, emptyConfig, false)
  | some inst =>
    match s1.getInstrumentMeta key with
    | .panicked s m => .panicked s m
    | .ok (s2, c, okOverall) => .ok (s2, some inst, c, okOverall)

/-- One iteration of the `ListMetadata` range callback: skip an entry
whose key is not an `InstrumentKey` or whose value is not an
`InstrumentConfig`, otherwise append the entry with a defensive copy of
its config. -/
def listStep (acc : BasicProvider × List InstrumentEntry)
    (kv : MetaKey × MetaVal) : BasicProvider × List InstrumentEntry :=
  match kv with
  | (.ik key, .config cfg) =>
    let s1cc := copyConfig acc.1 cfg
    (s1cc.1, acc.2 ++ [⟨key.typ, key.name, s1cc.2⟩])
  | _ => acc

/-- ListMetadata (`src/basic.go` / `src/basic_inspector.go`): range over
the `meta` table with `listStep`. -/
def BasicProvider.ListMetadata (p : BasicProvider) :
    BasicProvider × List InstrumentEntry :=
  p.meta.foldl listStep (p, [])

/-- One public registry call, for quantifying over call sequences.
`Op.create` stands for any of `Counter`/`UpDownCounter`/`Histogram`
(they are `getOrCreate` at the corresponding key); `Op.report` stands
for an internal invariant-violation report. -/
inductive Op : Type
  | create (key : InstrumentKey) (opts : List InstrumentOption)
  | counterWithMeta (name : String)
  | updownWithMeta (name : String)
  | histogramWithMeta (name : String)
  | listMetadata
  | report (kind : String) (key : InstrumentKey)
deriving DecidableEq

/-- The registry state after performing one call (on a panic, the state
at the moment of unwinding). -/
def applyOp (p : BasicProvider) (op : Op) : BasicProvider :=
  match op with
  | .create key opts => (p.getOrCreate key opts).1
  | .counterWithMeta n =>
    match p.CounterWithMeta n with
    | .panicked s _ => s
    | .ok (s, _, _, _) => s
  | .updownWithMeta n =>
    match p.UpDownCounterWithMeta n with
    | .panicked s _ => s
    | .ok (s, _, _, _) => s
  | .histogramWithMeta n =>
    match p.HistogramWithMeta n with
    | .panicked s _ => s
    | .ok (s, _, _, _) => s
  | .listMetadata => p.ListMetadata.1
  | .report kind key => (p.reportInvariantViolation kind key).1

/-- The registry state after a sequence of calls. -/
def runOps (p : BasicProvider) (ops : List Op) : BasicProvider :=
  ops.foldl applyOp p

/-- The running-minimum step performed by `Record`. -/
def minStep (m v : F) : F := if F.blt v m then v else m

/-- The running-maximum step performed by `Record`. -/
def maxStep (m v : F) : F := if F.blt m v then v else m

/-- The rational value of a finite `F` (0 on the infinities). -/
def F.toQ : F → ℚ
  | .fin q => q
  | _ => 0

/-- The second state differs from the first at most in the attribute heap
and the allocator (relation satisfied by option application and config
copying). -/
def heapOnly (s s' : BasicProvider) : Prop :=
  s'.doNotCleanupInits = s.doNotCleanupInits ∧ s'.logger = s.logger ∧
  s'.debug = s.debug ∧ s'.counters = s.counters ∧ s'.updowns = s.updowns ∧
  s'.histograms = s.histograms ∧ s'.meta = s.meta ∧ s'.inits = s.inits ∧
  s'.hists = s.hists ∧ s'.cells = s.cells ∧ s'.log = s.log ∧ s.next ≤ s'.next

/-- Storing the computed config into the metadata table (step 5 of the
slow path, first half). -/
def metaStored (s : BasicProvider) (key : InstrumentKey)
    (cfg : InstrumentConfig) : BasicProvider :=
  { s with meta := assocStore s.meta (.ik key) (.config cfg) }

/-- The optional deletion of the per-key init mutex entry (step 6). -/
def cleanupInits (s : BasicProvider) (key : InstrumentKey) : BasicProvider :=
  if s.doNotCleanupInits then s else { s with inits := assocErase s.inits key }

/-- The slow path of `getOrCreate` as a standalone function (the exact
sequence of the source: option application, per-key mutex, meta store,
create, optional init cleanup). -/
def slowPath (p : BasicProvider) (key : InstrumentKey)
    (opts : List InstrumentOption) : BasicProvider × Nat :=
  let s4r := (metaStored (keyMu (applyOptions p opts).1 key).1 key
    (applyOptions p opts).2).create key
  (cleanupInits s4r.1 key, s4r.2)

/-- The state carried by a `getInstrumentMeta` result. -/
def gimState (res : GoRes (BasicProvider × InstrumentConfig × Bool)) :
    BasicProvider :=
  match res with
  | .panicked s _ => s
  | .ok (s, _, _) => s

/-- The state carried by a `*WithMeta` result. -/
def wmState (res : GoRes (BasicProvider × Option Nat × InstrumentConfig × Bool)) :
    BasicProvider :=
  match res with
  | .panicked s _ => s
  | .ok (s, _, _, _) => s

/-- What every inspection-side step (mutex lookup, metadata read, config
copy, invariant report) preserves: instrument tables, histogram heap and
configuration are untouched, the allocator only grows, and metadata
entries are never removed. -/
def InspectStep (s s' : BasicProvider) : Prop :=
  s'.doNotCleanupInits = s.doNotCleanupInits ∧ s'.logger = s.logger ∧
  s'.debug = s.debug ∧ s'.counters = s.counters ∧ s'.updowns = s.updowns ∧
  s'.histograms = s.histograms ∧ s'.hists = s.hists ∧ s.next ≤ s'.next ∧
  (∀ mk, (assocGet s.meta mk).isSome → (assocGet s'.meta mk).isSome)

/-- Invariant I1: a key present in an instrument table has a metadata
entry. -/
def I1 (s : BasicProvider) : Prop :=
  ∀ key : InstrumentKey,
    (s.get key).isSome → (assocGet s.meta (MetaKey.ik key)).isSome

/-- The contents of a config's attributes map, resolved in a state's
attribute heap (nil map reads as empty). -/
def attrContents (s : BasicProvider) (c : InstrumentConfig) : AttrMap :=
  match c.Attributes with
  | none => []
  | some r => (assocGet s.attrHeap r).getD []

/-- What a caller can observe of a returned entry: kind, name,
description, unit and the attribute contents resolved in the returned
state. -/
def entryShape (s : BasicProvider) (e : InstrumentEntry) :
    InstrumentType × String × String × String × AttrMap :=
  (e.typ, e.name, e.Config.Description, e.Config.Unit, attrContents s e.Config)

/-- The observable data `ListMetadata` must produce for one meta-table
entry: `some` of the shape for a well-formed (InstrumentKey,
InstrumentConfig) entry, `none` (skip) otherwise. -/
def listShape (s : BasicProvider) (kv : MetaKey × MetaVal) :
    Option (InstrumentType × String × String × String × AttrMap) :=
  match kv with
  | (.ik key, .config c) =>
    some (key.typ, key.name, c.Description, c.Unit, attrContents s c)
  | _ => none

/-- Executable check that every well-formed config in a meta table
references only attribute maps below the allocator line. -/
def cfgRefsBelow (meta : List (MetaKey × MetaVal)) (n : Nat) : Bool :=
  meta.all (fun kv =>
    match kv.2 with
    | .config c =>
      match c.Attributes with
      | some r => decide (r < n)
      | none => true
    | _ => true)

/-- The metadata read of the kind matching an instrument key: dispatch to
the corresponding `*WithMeta` operation. -/
def WithMetaOf (p : BasicProvider) (typ : InstrumentType) (n : String) :
    GoRes (BasicProvider × Option Nat × InstrumentConfig × Bool) :=
  match typ with
  | .counter => p.CounterWithMeta n
  | .updown => p.UpDownCounterWithMeta n
  | .histogram => p.HistogramWithMeta n

/-- Caller-side mutation of a returned config's attributes map: overwrite
the heap cell the config references with arbitrary new contents. -/
def mutateConfigAttrs (s : BasicProvider) (c : InstrumentConfig)
    (mNew : AttrMap) : BasicProvider :=
  match c.Attributes with
  | none => s
  | some r => { s with attrHeap := assocStore s.attrHeap r mNew }

/-- Every created instrument key has a well-formed config entry. -/
def MetaConfigInv (s : BasicProvider) : Prop :=
  ∀ key : InstrumentKey, (s.get key).isSome →
    ∃ c, assocGet s.meta (MetaKey.ik key) = some (MetaVal.config c)

/-- The rate-limit bookkeeping: either no report has happened (no cell,
empty log), or the reserved key holds the cell, whose value counts the
reports so far (at most `b`), and the number of logged warnings is that
count capped at 10. -/
def RateLimitInv (s : BasicProvider) (b : Nat) : Prop :=
  (assocGet s.meta (MetaKey.ik reservedKey) = none ∧ s.log.length = 0) ∨
  (∃ r n, assocGet s.meta (MetaKey.ik reservedKey) = some (MetaVal.cell r) ∧
    assocGet s.cells r = some n ∧ 0 ≤ n ∧ n ≤ (b : Int) ∧
    s.log.length = min n.toNat 10)

/-- The bundle of invariants for the rate-limit argument: lenient build,
no instrument under the reserved key, every created key carries a
config, and the rate-limit bookkeeping is consistent. -/
def C6Inv (s : BasicProvider) (b : Nat) : Prop :=
  s.debug = false ∧ s.get reservedKey = none ∧ MetaConfigInv s ∧ RateLimitInv s b

/-- Executable check that a call sequence never creates an instrument
under the reserved rate-limit key. -/
def noReservedCreate (ops : List Op) : Bool :=
  ops.all (fun op =>
    match op with
    | .create key _ => decide (¬ key = reservedKey)
    | _ => true)

theorem assocGet_store_self {κ ν : Type} [DecidableEq κ]
    (l : List (κ × ν)) (k : κ) (v : ν) : assocGet (assocStore l k v) k = some v := by
  induction l with
  | nil => simp [assocGet, assocStore]
  | cons p t ih =>
    by_cases hp : p.1 = k
    · simp [assocGet, assocStore, hp]
    · simp [assocGet, assocStore, hp, ih]

theorem assocGet_store_other {κ ν : Type} [DecidableEq κ]
    (l : List (κ × ν)) (k k' : κ) (v : ν) (h : k' ≠ k) :
    assocGet (assocStore l k v) k' = assocGet l k' := by
  have hkk : ¬ k = k' := fun hc => h hc.symm
  induction l with
  | nil => simp [assocGet, assocStore, hkk]
  | cons p t ih =>
    by_cases hp : p.1 = k
    · have hpk : ¬ p.1 = k' := fun hc => h (hc.symm.trans hp)
      simp [assocGet, assocStore, hp, hpk, hkk]
    · by_cases hpk : p.1 = k'
      · simp [assocGet, assocStore, hp, hpk, h]
      · simp [assocGet, assocStore, hp, hpk, ih]

theorem assocGet_erase_other {κ ν : Type} [DecidableEq κ]
    (l : List (κ × ν)) (k k' : κ) (h : k' ≠ k) :
    assocGet (assocErase l k) k' = assocGet l k' := by
  have hkk : ¬ k = k' := fun hc => h hc.symm
  induction l with
  | nil => rfl
  | cons p t ih =>
    by_cases hp : p.1 = k
    · have hpk : ¬ p.1 = k' := fun hc => h (hc.symm.trans hp)
      simp [assocGet, assocErase, hp, hpk, ih, hkk]
    · by_cases hpk : p.1 = k'
      · simp [assocGet, assocErase, hp, hpk, h]
      · simp [assocGet, assocErase, hp, hpk, ih]

theorem F.blt_imp_ble {a b : F} (h : F.blt a b = true) : F.ble a b = true := by
  cases a <;> cases b <;> simp [F.blt, F.ble] at * <;> exact le_of_lt h

theorem F.not_blt_imp_ble {a b : F} (h : F.blt a b = false) : F.ble b a = true := by
  cases a <;> cases b <;> simp [F.blt, F.ble] at * <;> exact h

theorem F.ble_refl (a : F) : F.ble a a = true := by
  cases a <;> simp [F.ble]

theorem F.ble_trans {a b c : F} (h1 : F.ble a b = true) (h2 : F.ble b c = true) :
    F.ble a c = true := by
  cases a <;> cases b <;> cases c <;> simp [F.ble] at * <;> exact le_trans h1 h2

theorem minStep_ble_left (m v : F) : F.ble (minStep m v) m = true := by
  unfold minStep
  by_cases h : F.blt v m = true
  · simpa [h] using F.blt_imp_ble h
  · simp [h, F.ble_refl]

theorem minStep_ble_right (m v : F) : F.ble (minStep m v) v = true := by
  unfold minStep
  by_cases h : F.blt v m = true
  · simp [h, F.ble_refl]
  · simpa [h] using F.not_blt_imp_ble (by simpa using h)

theorem maxStep_ble_left (m v : F) : F.ble m (maxStep m v) = true := by
  unfold maxStep
  by_cases h : F.blt m v = true
  · simpa [h] using F.blt_imp_ble h
  · simp [h, F.ble_refl]

theorem maxStep_ble_right (m v : F) : F.ble v (maxStep m v) = true := by
  unfold maxStep
  by_cases h : F.blt m v = true
  · simp [h, F.ble_refl]
  · simpa [h] using F.not_blt_imp_ble (by simpa using h)

theorem minStep_cases (m v : F) : minStep m v = m ∨ minStep m v = v := by
  unfold minStep
  by_cases h : F.blt v m = true <;> simp [h]

theorem maxStep_cases (m v : F) : maxStep m v = m ∨ maxStep m v = v := by
  unfold maxStep
  by_cases h : F.blt m v = true <;> simp [h]

theorem foldl_minStep_mem (l : List F) (a : F) :
    l.foldl minStep a ∈ a :: l := by
  induction l generalizing a with
  | nil => simp
  | cons x t ih =>
    simp only [List.foldl_cons]
    have h := ih (minStep a x)
    rcases List.mem_cons.mp h with h1 | h1
    · rcases minStep_cases a x with hc | hc
      · rw [h1, hc]; simp
      · rw [h1, hc]; simp
    · simp [h1]

theorem foldl_minStep_ble (l : List F) (a : F) :
    F.ble (l.foldl minStep a) a = true ∧
      ∀ x ∈ l, F.ble (l.foldl minStep a) x = true := by
  induction l generalizing a with
  | nil => simp [F.ble_refl]
  | cons y t ih =>
    simp only [List.foldl_cons]
    have h := ih (minStep a y)
    refine ⟨F.ble_trans h.1 (minStep_ble_left a y), ?_⟩
    intro x hx
    rcases List.mem_cons.mp hx with h1 | h1
    · rw [h1]; exact F.ble_trans h.1 (minStep_ble_right a y)
    · exact h.2 x h1

theorem foldl_maxStep_mem (l : List F) (a : F) :
    l.foldl maxStep a ∈ a :: l := by
  induction l generalizing a with
  | nil => simp
  | cons x t ih =>
    simp only [List.foldl_cons]
    have h := ih (maxStep a x)
    rcases List.mem_cons.mp h with h1 | h1
    · rcases maxStep_cases a x with hc | hc
      · rw [h1, hc]; simp
      · rw [h1, hc]; simp
    · simp [h1]

theorem foldl_maxStep_ble (l : List F) (a : F) :
    F.ble a (l.foldl maxStep a) = true ∧
      ∀ x ∈ l, F.ble x (l.foldl maxStep a) = true := by
  induction l generalizing a with
  | nil => simp [F.ble_refl]
  | cons y t ih =>
    simp only [List.foldl_cons]
    have h := ih (maxStep a y)
    refine ⟨F.ble_trans (maxStep_ble_left a y) h.1, ?_⟩
    intro x hx
    rcases List.mem_cons.mp hx with h1 | h1
    · rw [h1]; exact F.ble_trans (maxStep_ble_right a y) h.1
    · exact h.2 x h1

theorem Record_pos (h : BasicHistogram) (v : F) (hc : h.count ≠ 0) :
    h.Record v = ⟨h.count + 1, F.add h.sum v, minStep h.min v, maxStep h.max v⟩ := by
  simp only [BasicHistogram.Record, hc, if_false, minStep, maxStep]
  by_cases h1 : F.blt v h.min = true <;> by_cases h2 : F.blt h.max v = true <;>
    simp [h1, h2]

theorem foldl_Record_pos (l : List F) (h : BasicHistogram) (hc : 0 < h.count) :
    l.foldl BasicHistogram.Record h =
      ⟨h.count + l.length, l.foldl F.add h.sum, l.foldl minStep h.min,
        l.foldl maxStep h.max⟩ := by
  induction l generalizing h with
  | nil => simp
  | cons v t ih =>
    have hne : h.count ≠ 0 := by omega
    have hpos : (0 : Int) < h.count + 1 := by omega
    rw [List.foldl_cons, Record_pos h v hne, ih _ hpos]
    simp only [BasicHistogram.mk.injEq, List.length_cons]
    refine ⟨?_, rfl, rfl, rfl⟩
    push_cast
    ring

theorem foldl_add_fin (l : List F) (a : ℚ) (hfin : ∀ x ∈ l, x.isFinite = true) :
    l.foldl F.add (.fin a) = .fin (a + (l.map F.toQ).sum) := by
  induction l generalizing a with
  | nil => simp
  | cons v t ih =>
    match v, hfin v (by simp) with
    | .fin q, _ =>
      have h2 := ih (a + q) (fun x hx => hfin x (by simp [hx]))
      rw [List.foldl_cons]
      show List.foldl F.add (.fin (a + q)) t = _
      rw [h2]
      simp only [List.map_cons, List.sum_cons, F.toQ, F.fin.injEq]
      ring

/-- C5: for a histogram into which values v1..vn (n > 0) have been
recorded, snapshot returns count = n, sum = v1+...+vn, min / max = the
minimum / maximum of the recorded values, and mean = sum/count; a
zero-count snapshot has mean 0.  Finite (NaN-free, non-infinite)
measurements; float64 arithmetic is modelled exactly. -/
theorem histogram_snapshot_aggregates (v : F) (rest : List F)
    (hfin : ∀ x ∈ v :: rest, x.isFinite = true) :
    (((v :: rest).foldl BasicHistogram.Record ⟨0, .fin 0, .posInf, .negInf⟩).Snapshot.Count
        = ((v :: rest).length : Int)) ∧
    (((v :: rest).foldl BasicHistogram.Record ⟨0, .fin 0, .posInf, .negInf⟩).Snapshot.Sum
        = .fin (((v :: rest).map F.toQ).sum)) ∧
    (((v :: rest).foldl BasicHistogram.Record ⟨0, .fin 0, .posInf, .negInf⟩).Snapshot.Min
        ∈ v :: rest ∧
      ∀ x ∈ v :: rest,
        F.ble (((v :: rest).foldl BasicHistogram.Record
          ⟨0, .fin 0, .posInf, .negInf⟩).Snapshot.Min) x = true) ∧
    (((v :: rest).foldl BasicHistogram.Record ⟨0, .fin 0, .posInf, .negInf⟩).Snapshot.Max
        ∈ v :: rest ∧
      ∀ x ∈ v :: rest,
        F.ble x (((v :: rest).foldl BasicHistogram.Record
          ⟨0, .fin 0, .posInf, .negInf⟩).Snapshot.Max) = true) ∧
    (((v :: rest).foldl BasicHistogram.Record ⟨0, .fin 0, .posInf, .negInf⟩).Snapshot.Mean
        = .fin (((v :: rest).map F.toQ).sum / ((v :: rest).length : ℚ))) ∧
    (BasicHistogram.Snapshot ⟨0, .fin 0, .posInf, .negInf⟩).Mean = .fin 0 := by
  have hv : F.isFinite v = true := hfin v (by simp)
  have hfirst :
      BasicHistogram.Record ⟨0, .fin 0, .posInf, .negInf⟩ v = ⟨1, v, v, v⟩ := by
    match v, hv with
    | .fin q, _ => simp [BasicHistogram.Record, F.add]
  have hfold := foldl_Record_pos rest ⟨1, v, v, v⟩ (by norm_num)
  have hq : ∃ q : ℚ, v = .fin q := by
    match v, hv with
    | .fin q, _ => exact ⟨q, rfl⟩
  obtain ⟨q, hqv⟩ := hq
  have hsum : rest.foldl F.add v = .fin (q + (rest.map F.toQ).sum) := by
    rw [hqv]
    exact foldl_add_fin rest q (fun x hx => hfin x (by simp [hx]))
  have hfin' : ((v :: rest).map F.toQ).sum = q + (rest.map F.toQ).sum := by
    simp [hqv, F.toQ]
  have hcnt : (1 : Int) + rest.length = ((v :: rest).length : Int) := by
    push_cast [List.length_cons]
    ring
  simp only [List.foldl_cons, hfirst, hfold]
  refine ⟨?_, ?_, ⟨?_, ?_⟩, ⟨?_, ?_⟩, ?_, ?_⟩
  · simpa [BasicHistogram.Snapshot] using hcnt
  · simpa [BasicHistogram.Snapshot, hsum] using hfin'.symm
  · simpa [BasicHistogram.Snapshot] using
      List.mem_cons.mp (foldl_minStep_mem rest v)
  · intro x hx
    rcases List.mem_cons.mp hx with h1 | h1
    · simpa [BasicHistogram.Snapshot, h1] using (foldl_minStep_ble rest v).1
    · simpa [BasicHistogram.Snapshot] using (foldl_minStep_ble rest v).2 x h1
  · simpa [BasicHistogram.Snapshot] using
      List.mem_cons.mp (foldl_maxStep_mem rest v)
  · intro x hx
    rcases List.mem_cons.mp hx with h1 | h1
    · simpa [BasicHistogram.Snapshot, h1] using (foldl_maxStep_ble rest v).1
    · simpa [BasicHistogram.Snapshot] using (foldl_maxStep_ble rest v).2 x h1
  · have hpos : (0 : Int) < 1 + rest.length := by omega
    have h3 : ((1 : Int) + rest.length).toNat = rest.length + 1 := by omega
    simp only [BasicHistogram.Snapshot, hpos, gt_iff_lt, if_true, hsum, F.divByNat,
      hfin', h3, List.length_cons, F.fin.injEq]
  · simp [BasicHistogram.Snapshot]

theorem heapOnly_refl (s : BasicProvider) : heapOnly s s := by
  refine ⟨rfl, rfl, rfl, rfl, rfl, rfl, rfl, rfl, rfl, rfl, rfl, le_refl _⟩

theorem heapOnly_trans {a b c : BasicProvider} (h1 : heapOnly a b)
    (h2 : heapOnly b c) : heapOnly a c := by
  obtain ⟨f1, f2, f3, f4, f5, f6, f7, f8, f9, f10, f11, f12⟩ := h1
  obtain ⟨g1, g2, g3, g4, g5, g6, g7, g8, g9, g10, g11, g12⟩ := h2
  exact ⟨g1.trans f1, g2.trans f2, g3.trans f3, g4.trans f4, g5.trans f5,
    g6.trans f6, g7.trans f7, g8.trans f8, g9.trans f9, g10.trans f10,
    g11.trans f11, le_trans f12 g12⟩

theorem applyOption_heapOnly (acc : BasicProvider × InstrumentConfig)
    (o : InstrumentOption) : heapOnly acc.1 (applyOption acc o).1 := by
  cases o with
  | nilOpt => exact heapOnly_refl _
  | withDescription d => exact heapOnly_refl _
  | withUnit u => exact heapOnly_refl _
  | withAttributes m =>
    by_cases hm : m.length = 0
    · simpa [applyOption, hm] using heapOnly_refl _
    · cases hattr : acc.2.Attributes with
      | none =>
        simp only [applyOption, hm, if_false, hattr]
        exact ⟨rfl, rfl, rfl, rfl, rfl, rfl, rfl, rfl, rfl, rfl, rfl, Nat.le_succ _⟩
      | some r =>
        simp only [applyOption, hm, if_false, hattr]
        exact ⟨rfl, rfl, rfl, rfl, rfl, rfl, rfl, rfl, rfl, rfl, rfl, le_refl _⟩

theorem foldl_applyOption_heapOnly (opts : List InstrumentOption)
    (acc : BasicProvider × InstrumentConfig) :
    heapOnly acc.1 (opts.foldl applyOption acc).1 := by
  induction opts generalizing acc with
  | nil => exact heapOnly_refl _
  | cons o t ih =>
    exact heapOnly_trans (applyOption_heapOnly acc o) (ih (applyOption acc o))

theorem applyOptions_heapOnly (p : BasicProvider) (opts : List InstrumentOption) :
    heapOnly p (applyOptions p opts).1 :=
  foldl_applyOption_heapOnly opts (p, emptyConfig)

theorem copyConfig_heapOnly (p : BasicProvider) (c : InstrumentConfig) :
    heapOnly p (copyConfig p c).1 := by
  unfold copyConfig
  cases hattr : c.Attributes with
  | none => exact heapOnly_refl _
  | some r =>
    by_cases hm : ((assocGet p.attrHeap r).getD []).length = 0
    · simpa [hm] using heapOnly_refl _
    · simp only [hm, if_false]
      exact ⟨rfl, rfl, rfl, rfl, rfl, rfl, rfl, rfl, rfl, rfl, rfl, Nat.le_succ _⟩

/-- What `keyMu` leaves untouched (everything but `inits` and `next`). -/
theorem keyMu_fields (p : BasicProvider) (key : InstrumentKey) :
    (keyMu p key).1.doNotCleanupInits = p.doNotCleanupInits ∧
    (keyMu p key).1.logger = p.logger ∧
    (keyMu p key).1.debug = p.debug ∧
    (keyMu p key).1.counters = p.counters ∧
    (keyMu p key).1.updowns = p.updowns ∧
    (keyMu p key).1.histograms = p.histograms ∧
    (keyMu p key).1.meta = p.meta ∧
    (keyMu p key).1.hists = p.hists ∧
    (keyMu p key).1.cells = p.cells ∧
    (keyMu p key).1.attrHeap = p.attrHeap ∧
    (keyMu p key).1.log = p.log ∧
    p.next ≤ (keyMu p key).1.next := by
  unfold keyMu
  cases assocGet p.inits key with
  | none =>
    exact ⟨rfl, rfl, rfl, rfl, rfl, rfl, rfl, rfl, rfl, rfl, rfl, Nat.le_succ _⟩
  | some m =>
    exact ⟨rfl, rfl, rfl, rfl, rfl, rfl, rfl, rfl, rfl, rfl, rfl, le_refl _⟩

/-- Storing at the reserved meta key preserves all other entries and
never removes an entry. -/
theorem meta_store_reserved_pres (meta : List (MetaKey × MetaVal)) (v : MetaVal) :
    (∀ mk, mk ≠ MetaKey.ik reservedKey →
      assocGet (assocStore meta (MetaKey.ik reservedKey) v) mk = assocGet meta mk) ∧
    (∀ mk, (assocGet meta mk).isSome →
      (assocGet (assocStore meta (MetaKey.ik reservedKey) v) mk).isSome) := by
  constructor
  · intro mk hmk
    exact assocGet_store_other _ _ _ _ hmk
  · intro mk hsome
    by_cases hmk : mk = MetaKey.ik reservedKey
    · subst hmk
      simp [assocGet_store_self]
    · rw [assocGet_store_other _ _ _ _ hmk]
      exact hsome

/-- What `reportInvariantViolation` leaves untouched, and how it changes
`meta`, `cells` and `log`: instrument tables, histogram heap, attribute
heap, init table and configuration are unchanged; meta entries other
than the reserved one are unchanged; existing meta entries survive; the
log is only appended to. -/
theorem report_fields (p : BasicProvider) (kind : String) (key : InstrumentKey) :
    ((p.reportInvariantViolation kind key).1.doNotCleanupInits = p.doNotCleanupInits) ∧
    ((p.reportInvariantViolation kind key).1.logger = p.logger) ∧
    ((p.reportInvariantViolation kind key).1.debug = p.debug) ∧
    ((p.reportInvariantViolation kind key).1.counters = p.counters) ∧
    ((p.reportInvariantViolation kind key).1.updowns = p.updowns) ∧
    ((p.reportInvariantViolation kind key).1.histograms = p.histograms) ∧
    ((p.reportInvariantViolation kind key).1.inits = p.inits) ∧
    ((p.reportInvariantViolation kind key).1.hists = p.hists) ∧
    ((p.reportInvariantViolation kind key).1.attrHeap = p.attrHeap) ∧
    (p.next ≤ (p.reportInvariantViolation kind key).1.next) ∧
    (∀ mk, mk ≠ MetaKey.ik reservedKey →
      assocGet (p.reportInvariantViolation kind key).1.meta mk = assocGet p.meta mk) ∧
    (∀ mk, (assocGet p.meta mk).isSome →
      (assocGet (p.reportInvariantViolation kind key).1.meta mk).isSome) ∧
    (∃ tail, (p.reportInvariantViolation kind key).1.log = p.log ++ tail) := by
  unfold BasicProvider.reportInvariantViolation
  rcases hres : assocGet p.meta (.ik reservedKey) with _ | mv
  · simp only [hres]
    split_ifs with h1 h2
    · exact ⟨rfl, rfl, rfl, rfl, rfl, rfl, rfl, rfl, rfl, Nat.le_succ _,
        (meta_store_reserved_pres p.meta _).1, (meta_store_reserved_pres p.meta _).2,
        [], (List.append_nil _).symm⟩
    · exact ⟨rfl, rfl, rfl, rfl, rfl, rfl, rfl, rfl, rfl, Nat.le_succ _,
        (meta_store_reserved_pres p.meta _).1, (meta_store_reserved_pres p.meta _).2,
        [], (List.append_nil _).symm⟩
    · exact ⟨rfl, rfl, rfl, rfl, rfl, rfl, rfl, rfl, rfl, Nat.le_succ _,
        (meta_store_reserved_pres p.meta _).1, (meta_store_reserved_pres p.meta _).2,
        _, rfl⟩
  · cases mv with
    | cell r =>
      simp only [hres]
      split_ifs with h1 h2
      · exact ⟨rfl, rfl, rfl, rfl, rfl, rfl, rfl, rfl, rfl, le_refl _,
          fun mk hmk => rfl, fun mk hs => hs, [], (List.append_nil _).symm⟩
      · exact ⟨rfl, rfl, rfl, rfl, rfl, rfl, rfl, rfl, rfl, le_refl _,
          fun mk hmk => rfl, fun mk hs => hs, [], (List.append_nil _).symm⟩
      · exact ⟨rfl, rfl, rfl, rfl, rfl, rfl, rfl, rfl, rfl, le_refl _,
          fun mk hmk => rfl, fun mk hs => hs, _, rfl⟩
    | config c =>
      simp only [hres]
      split_ifs with h1 h2
      · exact ⟨rfl, rfl, rfl, rfl, rfl, rfl, rfl, rfl, rfl, le_refl _,
          fun mk hmk => rfl, fun mk hs => hs, [], (List.append_nil _).symm⟩
      · exact ⟨rfl, rfl, rfl, rfl, rfl, rfl, rfl, rfl, rfl, le_refl _,
          fun mk hmk => rfl, fun mk hs => hs, [], (List.append_nil _).symm⟩
      · exact ⟨rfl, rfl, rfl, rfl, rfl, rfl, rfl, rfl, rfl, le_refl _,
          fun mk hmk => rfl, fun mk hs => hs, _, rfl⟩
    | str ss =>
      simp only [hres]
      split_ifs with h1 h2
      · exact ⟨rfl, rfl, rfl, rfl, rfl, rfl, rfl, rfl, rfl, le_refl _,
          fun mk hmk => rfl, fun mk hs => hs, [], (List.append_nil _).symm⟩
      · exact ⟨rfl, rfl, rfl, rfl, rfl, rfl, rfl, rfl, rfl, le_refl _,
          fun mk hmk => rfl, fun mk hs => hs, [], (List.append_nil _).symm⟩
      · exact ⟨rfl, rfl, rfl, rfl, rfl, rfl, rfl, rfl, rfl, le_refl _,
          fun mk hmk => rfl, fun mk hs => hs, _, rfl⟩

/-- `get` only reads the three instrument tables. -/
theorem get_congr_tables {s s' : BasicProvider} (hc : s'.counters = s.counters)
    (hu : s'.updowns = s.updowns) (hh : s'.histograms = s.histograms)
    (key : InstrumentKey) : s'.get key = s.get key := by
  cases key with
  | mk typ name => cases typ <;> simp [BasicProvider.get, hc, hu, hh]

/-- The fast path: a hit returns the stored reference and leaves the
whole state untouched. -/
theorem getOrCreate_found {p : BasicProvider} {key : InstrumentKey}
    {v : Nat} (opts : List InstrumentOption) (h : p.get key = some v) :
    p.getOrCreate key opts = (p, v) := by
  unfold BasicProvider.getOrCreate
  simp only [h]

/-- Instrument tables after `applyOptions` and `keyMu` are those of the
original state, so the re-check under the lock sees what the fast path
saw. -/
theorem get_after_prelude (p : BasicProvider) (key key' : InstrumentKey)
    (opts : List InstrumentOption) :
    (keyMu (applyOptions p opts).1 key).1.get key' = p.get key' := by
  obtain ⟨-, -, -, a4, a5, a6, -, -, -, -, -, -⟩ := applyOptions_heapOnly p opts
  obtain ⟨-, -, -, b4, b5, b6, -, -, -, -, -, -⟩ :=
    keyMu_fields (applyOptions p opts).1 key
  exact get_congr_tables (b4.trans a4) (b5.trans a5) (b6.trans a6) key'

/-- The slow path of `getOrCreate`, written as the explicit sequence
config-build, lock, meta store, create, optional init cleanup. -/
theorem getOrCreate_slow_eq (p : BasicProvider) (key : InstrumentKey)
    (opts : List InstrumentOption) (h : p.get key = none) :
    p.getOrCreate key opts =
      (let s2 := (keyMu (applyOptions p opts).1 key).1
       let s3 := { s2 with
         meta := assocStore s2.meta (.ik key) (.config (applyOptions p opts).2) }
       let s4r := s3.create key
       let s5 := if s4r.1.doNotCleanupInits then s4r.1
                 else { s4r.1 with inits := assocErase s4r.1.inits key }
       (s5, s4r.2)) := by
  have hnone : (keyMu (applyOptions p opts).1 key).1.get key = none :=
    (get_after_prelude p key key opts).trans h
  unfold BasicProvider.getOrCreate
  simp only [h, hnone]

/-- Everything `create` does: allocate one fresh reference, store it in
the table of the key's kind (histograms additionally get a fresh
accumulator with infinity sentinels), leave everything else alone. -/
theorem create_fields (p : BasicProvider) (key : InstrumentKey) :
    ((p.create key).2 = p.next) ∧
    ((p.create key).1.next = p.next + 1) ∧
    ((p.create key).1.get key = some p.next) ∧
    (∀ key', key' ≠ key → (p.create key).1.get key' = p.get key') ∧
    ((p.create key).1.meta = p.meta) ∧
    ((p.create key).1.inits = p.inits) ∧
    ((p.create key).1.cells = p.cells) ∧
    ((p.create key).1.attrHeap = p.attrHeap) ∧
    ((p.create key).1.log = p.log) ∧
    ((p.create key).1.doNotCleanupInits = p.doNotCleanupInits) ∧
    ((p.create key).1.logger = p.logger) ∧
    ((p.create key).1.debug = p.debug) ∧
    (key.typ = .histogram →
      assocGet (p.create key).1.hists p.next = some ⟨0, .fin 0, .posInf, .negInf⟩) ∧
    (key.typ ≠ .histogram → (p.create key).1.hists = p.hists) := by
  obtain ⟨typ, name⟩ := key
  cases typ with
  | counter =>
    refine ⟨rfl, rfl, ?_, ?_, rfl, rfl, rfl, rfl, rfl, rfl, rfl, rfl,
      fun hc => by exact absurd hc (by simp), fun _ => rfl⟩
    · simp [BasicProvider.create, BasicProvider.get, assocGet_store_self]
    · intro key' hne
      obtain ⟨typ', name'⟩ := key'
      cases typ' with
      | counter =>
        have hnn : name' ≠ name := fun hc => hne (by rw [hc])
        simp only [BasicProvider.create, BasicProvider.get]
        exact assocGet_store_other _ _ _ _ hnn
      | updown => simp [BasicProvider.create, BasicProvider.get]
      | histogram => simp [BasicProvider.create, BasicProvider.get]
  | updown =>
    refine ⟨rfl, rfl, ?_, ?_, rfl, rfl, rfl, rfl, rfl, rfl, rfl, rfl,
      fun hc => by exact absurd hc (by simp), fun _ => rfl⟩
    · simp [BasicProvider.create, BasicProvider.get, assocGet_store_self]
    · intro key' hne
      obtain ⟨typ', name'⟩ := key'
      cases typ' with
      | updown =>
        have hnn : name' ≠ name := fun hc => hne (by rw [hc])
        simp only [BasicProvider.create, BasicProvider.get]
        exact assocGet_store_other _ _ _ _ hnn
      | counter => simp [BasicProvider.create, BasicProvider.get]
      | histogram => simp [BasicProvider.create, BasicProvider.get]
  | histogram =>
    refine ⟨rfl, rfl, ?_, ?_, rfl, rfl, rfl, rfl, rfl, rfl, rfl, rfl,
      fun _ => ?_, fun hc => absurd rfl hc⟩
    · simp [BasicProvider.create, BasicProvider.get, assocGet_store_self]
    · intro key' hne
      obtain ⟨typ', name'⟩ := key'
      cases typ' with
      | histogram =>
        have hnn : name' ≠ name := fun hc => hne (by rw [hc])
        simp only [BasicProvider.create, BasicProvider.get]
        exact assocGet_store_other _ _ _ _ hnn
      | counter => simp [BasicProvider.create, BasicProvider.get]
      | updown => simp [BasicProvider.create, BasicProvider.get]
    · simp [BasicProvider.create, assocGet_store_self]

/-- Through the option fold, attribute-heap entries below a line that is
below the allocator stay unchanged, and the built config only ever
references maps at or above that line. -/
theorem foldl_applyOption_attr_frame (n : Nat) (opts : List InstrumentOption)
    (acc : BasicProvider × InstrumentConfig) (hn : n ≤ acc.1.next)
    (hcfg : ∀ r, acc.2.Attributes = some r → n ≤ r) :
    (∀ rr, rr < n →
      assocGet (opts.foldl applyOption acc).1.attrHeap rr =
        assocGet acc.1.attrHeap rr) ∧
    (∀ r, (opts.foldl applyOption acc).2.Attributes = some r → n ≤ r) := by
  induction opts generalizing acc with
  | nil => exact ⟨fun _ _ => rfl, hcfg⟩
  | cons o t ih =>
    have hstep : n ≤ (applyOption acc o).1.next :=
      le_trans hn (applyOption_heapOnly acc o).2.2.2.2.2.2.2.2.2.2.2
    have hcfg' : ∀ r, (applyOption acc o).2.Attributes = some r → n ≤ r := by
      intro r hr
      cases o with
      | nilOpt => exact hcfg r hr
      | withDescription d => exact hcfg r hr
      | withUnit u => exact hcfg r hr
      | withAttributes m =>
        by_cases hm : m.length = 0
        · simp only [applyOption, hm, if_true] at hr
          exact hcfg r hr
        · cases hattr : acc.2.Attributes with
          | none =>
            simp only [applyOption, hm, if_false, hattr] at hr
            cases hr
            exact hn
          | some r0 =>
            simp only [applyOption, hm, if_false, hattr, Option.some.injEq] at hr
            exact hr ▸ hcfg r0 hattr
    have hheap : ∀ rr, rr < n →
        assocGet (applyOption acc o).1.attrHeap rr = assocGet acc.1.attrHeap rr := by
      intro rr hrr
      cases o with
      | nilOpt => rfl
      | withDescription d => rfl
      | withUnit u => rfl
      | withAttributes m =>
        by_cases hm : m.length = 0
        · simp [applyOption, hm]
        · cases hattr : acc.2.Attributes with
          | none =>
            simp only [applyOption, hm, if_false, hattr]
            exact assocGet_store_other _ _ _ _ (by omega)
          | some r0 =>
            have hr0 : n ≤ r0 := hcfg r0 hattr
            simp only [applyOption, hm, if_false, hattr]
            exact assocGet_store_other _ _ _ _ (by omega)
    have := ih (applyOption acc o) hstep hcfg'
    exact ⟨fun rr hrr => (this.1 rr hrr).trans (hheap rr hrr), this.2⟩

/-- Attribute-heap entries below the allocator line survive
`applyOptions`, and the resulting config references only fresh maps. -/
theorem applyOptions_attr_frame (p : BasicProvider) (opts : List InstrumentOption) :
    (∀ rr, rr < p.next →
      assocGet (applyOptions p opts).1.attrHeap rr = assocGet p.attrHeap rr) ∧
    (∀ r, (applyOptions p opts).2.Attributes = some r → p.next ≤ r) :=
  foldl_applyOption_attr_frame p.next opts (p, emptyConfig) (le_refl _)
    (fun r hr => by simp [emptyConfig] at hr)

/-- The built config's attribute reference stays below the allocator. -/
theorem foldl_applyOption_cfg_lt (opts : List InstrumentOption)
    (acc : BasicProvider × InstrumentConfig)
    (hcfg : ∀ r, acc.2.Attributes = some r → r < acc.1.next) :
    ∀ r, (opts.foldl applyOption acc).2.Attributes = some r →
      r < (opts.foldl applyOption acc).1.next := by
  induction opts generalizing acc with
  | nil => exact hcfg
  | cons o t ih =>
    refine ih (applyOption acc o) ?_
    intro r hr
    cases o with
    | nilOpt => exact hcfg r hr
    | withDescription d => exact hcfg r hr
    | withUnit u => exact hcfg r hr
    | withAttributes m =>
      by_cases hm : m.length = 0
      · simp only [applyOption, hm, if_true] at hr ⊢
        exact hcfg r hr
      · cases hattr : acc.2.Attributes with
        | none =>
          simp only [applyOption, hm, if_false, hattr, Option.some.injEq] at hr ⊢
          omega
        | some r0 =>
          simp only [applyOption, hm, if_false, hattr, Option.some.injEq] at hr ⊢
          exact hr ▸ hcfg r0 hattr

/-- The config built by `applyOptions` references only maps below the
resulting allocator line. -/
theorem applyOptions_cfg_lt (p : BasicProvider) (opts : List InstrumentOption) :
    ∀ r, (applyOptions p opts).2.Attributes = some r →
      r < (applyOptions p opts).1.next :=
  foldl_applyOption_cfg_lt opts (p, emptyConfig)
    (fun r hr => by simp [emptyConfig] at hr)

theorem assocGet_store_isSome {κ ν : Type} [DecidableEq κ]
    (l : List (κ × ν)) (k k' : κ) (v : ν) (h : (assocGet l k').isSome) :
    (assocGet (assocStore l k v) k').isSome := by
  by_cases hk : k' = k
  · subst hk
    simp [assocGet_store_self]
  · rw [assocGet_store_other _ _ _ _ hk]
    exact h

theorem metaStored_fields (s : BasicProvider) (key : InstrumentKey)
    (cfg : InstrumentConfig) :
    ((metaStored s key cfg).meta = assocStore s.meta (.ik key) (.config cfg)) ∧
    ((metaStored s key cfg).counters = s.counters) ∧
    ((metaStored s key cfg).updowns = s.updowns) ∧
    ((metaStored s key cfg).histograms = s.histograms) ∧
    ((metaStored s key cfg).inits = s.inits) ∧
    ((metaStored s key cfg).hists = s.hists) ∧
    ((metaStored s key cfg).cells = s.cells) ∧
    ((metaStored s key cfg).attrHeap = s.attrHeap) ∧
    ((metaStored s key cfg).log = s.log) ∧
    ((metaStored s key cfg).next = s.next) ∧
    ((metaStored s key cfg).doNotCleanupInits = s.doNotCleanupInits) ∧
    ((metaStored s key cfg).logger = s.logger) ∧
    ((metaStored s key cfg).debug = s.debug) := by
  refine ⟨rfl, rfl, rfl, rfl, rfl, rfl, rfl, rfl, rfl, rfl, rfl, rfl, rfl⟩

theorem cleanupInits_fields (s : BasicProvider) (key : InstrumentKey) :
    ((cleanupInits s key).meta = s.meta) ∧
    ((cleanupInits s key).counters = s.counters) ∧
    ((cleanupInits s key).updowns = s.updowns) ∧
    ((cleanupInits s key).histograms = s.histograms) ∧
    ((cleanupInits s key).hists = s.hists) ∧
    ((cleanupInits s key).cells = s.cells) ∧
    ((cleanupInits s key).attrHeap = s.attrHeap) ∧
    ((cleanupInits s key).log = s.log) ∧
    ((cleanupInits s key).next = s.next) ∧
    ((cleanupInits s key).doNotCleanupInits = s.doNotCleanupInits) ∧
    ((cleanupInits s key).logger = s.logger) ∧
    ((cleanupInits s key).debug = s.debug) := by
  unfold cleanupInits
  by_cases hcl : s.doNotCleanupInits = true <;> simp [hcl]

theorem getOrCreate_slow (p : BasicProvider) (key : InstrumentKey)
    (opts : List InstrumentOption) (h : p.get key = none) :
    p.getOrCreate key opts = slowPath p key opts := by
  have h2 := getOrCreate_slow_eq p key opts h
  rw [h2]
  rfl

/-- Everything the slow path guarantees: the new instrument is stored and
returned, other keys are untouched, the computed config is stored under
the key, other metadata survives, log/cells/flags are unchanged, the
reference is fresh, low attribute-heap entries survive, and a histogram
key gets the sentinel-initialized accumulator. -/
theorem slowPath_fields (p : BasicProvider) (key : InstrumentKey)
    (opts : List InstrumentOption) :
    ((slowPath p key opts).1.get key = some (slowPath p key opts).2) ∧
    (∀ key', key' ≠ key → (slowPath p key opts).1.get key' = p.get key') ∧
    (assocGet (slowPath p key opts).1.meta (MetaKey.ik key) =
      some (MetaVal.config (applyOptions p opts).2)) ∧
    (∀ mk, mk ≠ MetaKey.ik key →
      assocGet (slowPath p key opts).1.meta mk = assocGet p.meta mk) ∧
    (∀ mk, (assocGet p.meta mk).isSome →
      (assocGet (slowPath p key opts).1.meta mk).isSome) ∧
    ((slowPath p key opts).1.log = p.log) ∧
    ((slowPath p key opts).1.cells = p.cells) ∧
    ((slowPath p key opts).1.doNotCleanupInits = p.doNotCleanupInits) ∧
    ((slowPath p key opts).1.logger = p.logger) ∧
    ((slowPath p key opts).1.debug = p.debug) ∧
    (p.next ≤ (slowPath p key opts).2 ∧
      (slowPath p key opts).2 < (slowPath p key opts).1.next) ∧
    (∀ rr, rr < p.next →
      assocGet (slowPath p key opts).1.attrHeap rr = assocGet p.attrHeap rr) ∧
    (key.typ = .histogram →
      assocGet (slowPath p key opts).1.hists (slowPath p key opts).2 =
        some ⟨0, .fin 0, .posInf, .negInf⟩) ∧
    (key.typ ≠ .histogram → (slowPath p key opts).1.hists = p.hists) := by
  obtain ⟨a1, a2, a3, a4, a5, a6, a7, a8, a9, a10, a11, a12⟩ :=
    applyOptions_heapOnly p opts
  obtain ⟨b1, b2, b3, b4, b5, b6, b7, b8, b9, b10, b11, b12⟩ :=
    keyMu_fields (applyOptions p opts).1 key
  obtain ⟨c1, c2, c3, c4, c5, c6, c7, c8, c9, c10, c11, c12, c13, c14⟩ :=
    create_fields (metaStored (keyMu (applyOptions p opts).1 key).1 key
      (applyOptions p opts).2) key
  obtain ⟨m1, m2, m3, m4, m5, m6, m7, m8, m9, m10, m11, m12, m13⟩ :=
    metaStored_fields (keyMu (applyOptions p opts).1 key).1 key
      (applyOptions p opts).2
  obtain ⟨d1, d2, d3, d4, d5, d6, d7, d8, d9, d10, d11, d12⟩ :=
    cleanupInits_fields ((metaStored (keyMu (applyOptions p opts).1 key).1 key
      (applyOptions p opts).2).create key).1 key
  unfold slowPath
  refine ⟨?_, ?_, ?_, ?_, ?_, ?_, ?_, ?_, ?_, ?_, ⟨?_, ?_⟩, ?_, ?_, ?_⟩
  · rw [c1, ← c3]
    exact get_congr_tables d2 d3 d4 key
  · intro key' hk
    rw [get_congr_tables d2 d3 d4 key', c4 key' hk,
      get_congr_tables m2 m3 m4 key']
    exact get_after_prelude p key key' opts
  · rw [d1, c5, m1]
    exact assocGet_store_self _ _ _
  · intro mk hmk
    rw [d1, c5, m1, assocGet_store_other _ _ _ _ hmk, b7, a7]
  · intro mk hs
    rw [d1, c5, m1]
    refine assocGet_store_isSome _ _ _ _ ?_
    rw [b7, a7]
    exact hs
  · rw [d8, c9, m9, b11, a11]
  · rw [d6, c7, m7, b9, a10]
  · rw [d10, c10, m11, b1, a1]
  · rw [d11, c11, m12, b2, a2]
  · rw [d12, c12, m13, b3, a3]
  · rw [c1, m10]
    omega
  · rw [d9, c1, c2, m10]
    omega
  · intro rr hrr
    rw [d7, c8, m8, b10]
    exact (applyOptions_attr_frame p opts).1 rr hrr
  · intro ht
    rw [d5, c1, m10]
    have := c13 ht
    rw [m10] at this
    exact this
  · intro ht
    rw [d5, c14 ht, m6, b8, a9]

theorem inspectStep_refl (s : BasicProvider) : InspectStep s s :=
  ⟨rfl, rfl, rfl, rfl, rfl, rfl, rfl, le_refl _, fun _ h => h⟩

theorem inspectStep_trans {a b c : BasicProvider} (h1 : InspectStep a b)
    (h2 : InspectStep b c) : InspectStep a c := by
  obtain ⟨f1, f2, f3, f4, f5, f6, f7, f8, f9⟩ := h1
  obtain ⟨g1, g2, g3, g4, g5, g6, g7, g8, g9⟩ := h2
  exact ⟨g1.trans f1, g2.trans f2, g3.trans f3, g4.trans f4, g5.trans f5,
    g6.trans f6, g7.trans f7, le_trans f8 g8, fun mk h => g9 mk (f9 mk h)⟩

theorem heapOnly_inspectStep {s s' : BasicProvider} (h : heapOnly s s') :
    InspectStep s s' := by
  obtain ⟨f1, f2, f3, f4, f5, f6, f7, f8, f9, f10, f11, f12⟩ := h
  exact ⟨f1, f2, f3, f4, f5, f6, f9, f12, fun mk hs => by rw [f7]; exact hs⟩

theorem keyMu_inspectStep (p : BasicProvider) (key : InstrumentKey) :
    InspectStep p (keyMu p key).1 := by
  obtain ⟨b1, b2, b3, b4, b5, b6, b7, b8, b9, b10, b11, b12⟩ := keyMu_fields p key
  exact ⟨b1, b2, b3, b4, b5, b6, b8, b12, fun mk hs => by rw [b7]; exact hs⟩

theorem report_inspectStep (p : BasicProvider) (kind : String)
    (key : InstrumentKey) :
    InspectStep p (p.reportInvariantViolation kind key).1 := by
  obtain ⟨f1, f2, f3, f4, f5, f6, f7, f8, f9, f10, f11, f12, f13⟩ :=
    report_fields p kind key
  exact ⟨f1, f2, f3, f4, f5, f6, f8, f10, f12⟩

theorem gim_inspectStep (p : BasicProvider) (key : InstrumentKey) :
    InspectStep p (gimState (p.getInstrumentMeta key)) := by
  unfold BasicProvider.getInstrumentMeta
  rcases hm : assocGet p.meta (.ik key) with _ | mv
  · cases hrep : p.reportInvariantViolation (key.typ.typeString ++ "_meta_missing") key with
    | mk s' rr =>
      have := report_inspectStep p (key.typ.typeString ++ "_meta_missing") key
      rw [hrep] at this
      cases rr <;> simpa [gimState] using this
  · cases mv with
    | config c =>
      simpa [gimState] using heapOnly_inspectStep (copyConfig_heapOnly p c)
    | cell r =>
      cases hrep : p.reportInvariantViolation (key.typ.typeString ++ "_meta_type") key with
      | mk s' rr =>
        have := report_inspectStep p (key.typ.typeString ++ "_meta_type") key
        rw [hrep] at this
        cases rr <;> simpa [gimState] using this
    | str ss =>
      cases hrep : p.reportInvariantViolation (key.typ.typeString ++ "_meta_type") key with
      | mk s' rr =>
        have := report_inspectStep p (key.typ.typeString ++ "_meta_type") key
        rw [hrep] at this
        cases rr <;> simpa [gimState] using this

theorem cwm_inspectStep (p : BasicProvider) (n : String) :
    InspectStep p (wmState (p.CounterWithMeta n)) := by
  unfold BasicProvider.CounterWithMeta
  have hkm := keyMu_inspectStep p (NewInstrumentKey .counter n)
  rcases hc : assocGet (keyMu p (NewInstrumentKey .counter n)).1.counters n with _ | inst
  · simpa [wmState, hc] using hkm
  · have hg := gim_inspectStep (keyMu p (NewInstrumentKey .counter n)).1
      (NewInstrumentKey .counter n)
    cases hgim : (keyMu p (NewInstrumentKey .counter n)).1.getInstrumentMeta
        (NewInstrumentKey .counter n) with
    | panicked s m =>
      rw [hgim] at hg
      simpa [wmState, hc, hgim] using
        inspectStep_trans hkm (by simpa [gimState] using hg)
    | ok a =>
      obtain ⟨s2, c, okk⟩ := a
      rw [hgim] at hg
      simpa [wmState, hc, hgim] using
        inspectStep_trans hkm (by simpa [gimState] using hg)

theorem uwm_inspectStep (p : BasicProvider) (n : String) :
    InspectStep p (wmState (p.UpDownCounterWithMeta n)) := by
  unfold BasicProvider.UpDownCounterWithMeta
  have hkm := keyMu_inspectStep p (NewInstrumentKey .updown n)
  rcases hc : assocGet (keyMu p (NewInstrumentKey .updown n)).1.updowns n with _ | inst
  · simpa [wmState, hc] using hkm
  · have hg := gim_inspectStep (keyMu p (NewInstrumentKey .updown n)).1
      (NewInstrumentKey .updown n)
    cases hgim : (keyMu p (NewInstrumentKey .updown n)).1.getInstrumentMeta
        (NewInstrumentKey .updown n) with
    | panicked s m =>
      rw [hgim] at hg
      simpa [wmState, hc, hgim] using
        inspectStep_trans hkm (by simpa [gimState] using hg)
    | ok a =>
      obtain ⟨s2, c, okk⟩ := a
      rw [hgim] at hg
      simpa [wmState, hc, hgim] using
        inspectStep_trans hkm (by simpa [gimState] using hg)

theorem hwm_inspectStep (p : BasicProvider) (n : String) :
    InspectStep p (wmState (p.HistogramWithMeta n)) := by
  unfold BasicProvider.HistogramWithMeta
  have hkm := keyMu_inspectStep p (NewInstrumentKey .histogram n)
  rcases hc : assocGet (keyMu p (NewInstrumentKey .histogram n)).1.histograms n with _ | inst
  · simpa [wmState, hc] using hkm
  · have hg := gim_inspectStep (keyMu p (NewInstrumentKey .histogram n)).1
      (NewInstrumentKey .histogram n)
    cases hgim : (keyMu p (NewInstrumentKey .histogram n)).1.getInstrumentMeta
        (NewInstrumentKey .histogram n) with
    | panicked s m =>
      rw [hgim] at hg
      simpa [wmState, hc, hgim] using
        inspectStep_trans hkm (by simpa [gimState] using hg)
    | ok a =>
      obtain ⟨s2, c, okk⟩ := a
      rw [hgim] at hg
      simpa [wmState, hc, hgim] using
        inspectStep_trans hkm (by simpa [gimState] using hg)

theorem foldl_listStep_inspectStep (entries : List (MetaKey × MetaVal))
    (acc : BasicProvider × List InstrumentEntry) :
    InspectStep acc.1 (entries.foldl listStep acc).1 := by
  induction entries generalizing acc with
  | nil => exact inspectStep_refl _
  | cons kv t ih =>
    refine inspectStep_trans ?_ (ih (listStep acc kv))
    obtain ⟨mk, mv⟩ := kv
    cases mk with
    | ik key =>
      cases mv with
      | config cfg =>
        simpa [listStep] using
          heapOnly_inspectStep (copyConfig_heapOnly acc.1 cfg)
      | cell r => exact inspectStep_refl _
      | str ss => exact inspectStep_refl _
    | str ss => exact inspectStep_refl _

theorem listMetadata_inspectStep (p : BasicProvider) :
    InspectStep p p.ListMetadata.1 :=
  foldl_listStep_inspectStep p.meta (p, [])

theorem inspectStep_get {s s' : BasicProvider} (h : InspectStep s s')
    (key : InstrumentKey) : s'.get key = s.get key :=
  get_congr_tables h.2.2.2.1 h.2.2.2.2.1 h.2.2.2.2.2.1 key

theorem applyOp_inspectStep (p : BasicProvider) (op : Op)
    (hop : ∀ key opts, op ≠ .create key opts) :
    InspectStep p (applyOp p op) := by
  cases op with
  | create key opts => exact absurd rfl (hop key opts)
  | counterWithMeta n =>
    have h := cwm_inspectStep p n
    cases hr : p.CounterWithMeta n with
    | panicked s m =>
      rw [hr] at h
      simpa [applyOp, hr, wmState] using h
    | ok a =>
      obtain ⟨s, i, c, f⟩ := a
      rw [hr] at h
      simpa [applyOp, hr, wmState] using h
  | updownWithMeta n =>
    have h := uwm_inspectStep p n
    cases hr : p.UpDownCounterWithMeta n with
    | panicked s m =>
      rw [hr] at h
      simpa [applyOp, hr, wmState] using h
    | ok a =>
      obtain ⟨s, i, c, f⟩ := a
      rw [hr] at h
      simpa [applyOp, hr, wmState] using h
  | histogramWithMeta n =>
    have h := hwm_inspectStep p n
    cases hr : p.HistogramWithMeta n with
    | panicked s m =>
      rw [hr] at h
      simpa [applyOp, hr, wmState] using h
    | ok a =>
      obtain ⟨s, i, c, f⟩ := a
      rw [hr] at h
      simpa [applyOp, hr, wmState] using h
  | listMetadata => exact listMetadata_inspectStep p
  | report kind key => exact report_inspectStep p kind key

theorem get_stable_applyOp (p : BasicProvider) (op : Op) (key : InstrumentKey)
    (r : Nat) (h : p.get key = some r) : (applyOp p op).get key = some r := by
  cases hop : op with
  | create key' opts =>
    show ((p.getOrCreate key' opts).1).get key = some r
    rcases hk : p.get key' with _ | v
    · rw [getOrCreate_slow p key' opts hk]
      have hne : key ≠ key' := by
        intro hc
        rw [hc, hk] at h
        exact Option.noConfusion h
      rw [(slowPath_fields p key' opts).2.1 key hne]
      exact h
    · rw [getOrCreate_found opts hk]
      exact h
  | counterWithMeta n =>
    rw [inspectStep_get (applyOp_inspectStep p _ (fun _ _ hc => Op.noConfusion hc)) key]
    exact h
  | updownWithMeta n =>
    rw [inspectStep_get (applyOp_inspectStep p _ (fun _ _ hc => Op.noConfusion hc)) key]
    exact h
  | histogramWithMeta n =>
    rw [inspectStep_get (applyOp_inspectStep p _ (fun _ _ hc => Op.noConfusion hc)) key]
    exact h
  | listMetadata =>
    rw [inspectStep_get (applyOp_inspectStep p _ (fun _ _ hc => Op.noConfusion hc)) key]
    exact h
  | report kind key' =>
    rw [inspectStep_get (applyOp_inspectStep p _ (fun _ _ hc => Op.noConfusion hc)) key]
    exact h

theorem get_stable_runOps (ops : List Op) (p : BasicProvider)
    (key : InstrumentKey) (r : Nat) (h : p.get key = some r) :
    (runOps p ops).get key = some r := by
  induction ops generalizing p with
  | nil => exact h
  | cons op t ih => exact ih (applyOp p op) (get_stable_applyOp p op key r h)

theorem I1_applyOp (p : BasicProvider) (op : Op) (h : I1 p) : I1 (applyOp p op) := by
  cases hop : op with
  | create key' opts =>
    show I1 ((p.getOrCreate key' opts).1)
    rcases hk : p.get key' with _ | v
    · rw [getOrCreate_slow p key' opts hk]
      intro key hkey
      by_cases hc : key = key'
      · subst hc
        rw [(slowPath_fields p key opts).2.2.1]
        rfl
      · rw [(slowPath_fields p key' opts).2.1 key hc] at hkey
        exact (slowPath_fields p key' opts).2.2.2.2.1 _ (h key hkey)
    · rw [getOrCreate_found opts hk]
      exact h
  | counterWithMeta n =>
    have hs := applyOp_inspectStep p (.counterWithMeta n) (fun _ _ hc => Op.noConfusion hc)
    intro key hkey
    rw [inspectStep_get hs key] at hkey
    exact hs.2.2.2.2.2.2.2.2 _ (h key hkey)
  | updownWithMeta n =>
    have hs := applyOp_inspectStep p (.updownWithMeta n) (fun _ _ hc => Op.noConfusion hc)
    intro key hkey
    rw [inspectStep_get hs key] at hkey
    exact hs.2.2.2.2.2.2.2.2 _ (h key hkey)
  | histogramWithMeta n =>
    have hs := applyOp_inspectStep p (.histogramWithMeta n) (fun _ _ hc => Op.noConfusion hc)
    intro key hkey
    rw [inspectStep_get hs key] at hkey
    exact hs.2.2.2.2.2.2.2.2 _ (h key hkey)
  | listMetadata =>
    have hs := applyOp_inspectStep p .listMetadata (fun _ _ hc => Op.noConfusion hc)
    intro key hkey
    rw [inspectStep_get hs key] at hkey
    exact hs.2.2.2.2.2.2.2.2 _ (h key hkey)
  | report kind key' =>
    have hs := applyOp_inspectStep p (.report kind key') (fun _ _ hc => Op.noConfusion hc)
    intro key hkey
    rw [inspectStep_get hs key] at hkey
    exact hs.2.2.2.2.2.2.2.2 _ (h key hkey)

theorem I1_runOps (ops : List Op) (p : BasicProvider) (h : I1 p) :
    I1 (runOps p ops) := by
  induction ops generalizing p with
  | nil => exact h
  | cons op t ih => exact ih (applyOp p op) (I1_applyOp p op h)

theorem I1_initial (debug : Bool) (popts : List BasicProviderOption) :
    I1 (NewBasicProvider debug popts) := by
  intro key hkey
  obtain ⟨typ, name⟩ := key
  cases typ <;> simp [NewBasicProvider, BasicProvider.get, assocGet] at hkey

/-- After any `getOrCreate`, the key's table entry is the returned
reference. -/
theorem getOrCreate_get_self (s : BasicProvider) (key : InstrumentKey)
    (opts : List InstrumentOption) :
    (s.getOrCreate key opts).1.get key = some (s.getOrCreate key opts).2 := by
  rcases hk : s.get key with _ | v
  · rw [getOrCreate_slow s key opts hk]
    exact (slowPath_fields s key opts).1
  · rw [getOrCreate_found opts hk]
    exact hk

/-- C1: for every key, every get-or-create call after the first returns
the exact same instrument reference the first call returned — with any
options and after any further sequence of registry calls — and the later
call leaves the registry state completely unchanged, so the stored
instrument for the key is never replaced and the underlying accumulator
is constructed exactly once. -/
theorem getOrCreate_exactly_once (s : BasicProvider) (key : InstrumentKey)
    (opts1 opts2 : List InstrumentOption) (ops : List Op) :
    ((runOps (s.getOrCreate key opts1).1 ops).get key
        = some (s.getOrCreate key opts1).2) ∧
    ((runOps (s.getOrCreate key opts1).1 ops).getOrCreate key opts2
        = (runOps (s.getOrCreate key opts1).1 ops, (s.getOrCreate key opts1).2)) := by
  have h1 : (runOps (s.getOrCreate key opts1).1 ops).get key
      = some (s.getOrCreate key opts1).2 :=
    get_stable_runOps ops _ key _ (getOrCreate_get_self s key opts1)
  exact ⟨h1, getOrCreate_found opts2 h1⟩

/-- C2: the metadata stored for a key is exactly the config computed from
the creating call's options; a later get-or-create that finds the
instrument present returns with the whole state (hence the stored
metadata) unchanged, so the stored description/unit/attributes are never
a mix of two calls' option sets. -/
theorem metadata_first_writer_wins (s : BasicProvider) (key : InstrumentKey)
    (opts1 opts2 : List InstrumentOption) (h : s.get key = none) :
    (assocGet (s.getOrCreate key opts1).1.meta (MetaKey.ik key) =
      some (.config (applyOptions s opts1).2)) ∧
    ((s.getOrCreate key opts1).1.getOrCreate key opts2 =
      ((s.getOrCreate key opts1).1, (s.getOrCreate key opts1).2)) ∧
    (assocGet ((s.getOrCreate key opts1).1.getOrCreate key opts2).1.meta
      (MetaKey.ik key) = some (.config (applyOptions s opts1).2)) := by
  have h1 : assocGet (s.getOrCreate key opts1).1.meta (MetaKey.ik key) =
      some (.config (applyOptions s opts1).2) := by
    rw [getOrCreate_slow s key opts1 h]
    exact (slowPath_fields s key opts1).2.2.1
  have h2 := getOrCreate_found opts2 (getOrCreate_get_self s key opts1)
  refine ⟨h1, h2, ?_⟩
  rw [h2]
  exact h1

/-- Witness for C2 at a concrete creation. -/
theorem metadata_first_writer_wins_witness :
    ((NewBasicProvider false []).get ⟨.counter, "x"⟩ = none) ∧
    (assocGet ((NewBasicProvider false []).getOrCreate ⟨.counter, "x"⟩
        [.withDescription "A"]).1.meta (MetaKey.ik ⟨.counter, "x"⟩) =
      some (.config (applyOptions (NewBasicProvider false [])
        [.withDescription "A"]).2)) ∧
    (((NewBasicProvider false []).getOrCreate ⟨.counter, "x"⟩
        [.withDescription "A"]).1.getOrCreate ⟨.counter, "x"⟩
        [.withDescription "B"] =
      (((NewBasicProvider false []).getOrCreate ⟨.counter, "x"⟩
        [.withDescription "A"]).1,
       ((NewBasicProvider false []).getOrCreate ⟨.counter, "x"⟩
        [.withDescription "A"]).2)) :=
  ⟨by decide,
   (metadata_first_writer_wins (NewBasicProvider false []) ⟨.counter, "x"⟩
     [.withDescription "A"] [.withDescription "B"] (by decide)).1,
   (metadata_first_writer_wins (NewBasicProvider false []) ⟨.counter, "x"⟩
     [.withDescription "A"] [.withDescription "B"] (by decide)).2.1⟩

/-- C3: the slow path stores the computed config into the metadata table
strictly before constructing and storing the instrument (it factors
through `metaStored` and then `create`), and consequently after any
sequence of registry calls from a fresh provider, every key present in
an instrument table has a metadata entry (invariant I1). -/
theorem meta_before_instrument_invariant (debug : Bool)
    (popts : List BasicProviderOption) (ops : List Op) (key : InstrumentKey)
    (hkey : ((runOps (NewBasicProvider debug popts) ops).get key).isSome) :
    ((assocGet (runOps (NewBasicProvider debug popts) ops).meta
      (MetaKey.ik key)).isSome) ∧
    (∀ (p : BasicProvider) (opts : List InstrumentOption), p.get key = none →
      p.getOrCreate key opts =
        (cleanupInits ((metaStored (keyMu (applyOptions p opts).1 key).1 key
          (applyOptions p opts).2).create key).1 key,
         ((metaStored (keyMu (applyOptions p opts).1 key).1 key
          (applyOptions p opts).2).create key).2)) := by
  refine ⟨I1_runOps ops _ (I1_initial debug popts) key hkey, ?_⟩
  intro p opts hp
  exact getOrCreate_slow p key opts hp

/-- Witness for C3 at a concrete trace. -/
theorem meta_before_instrument_invariant_witness :
    (((runOps (NewBasicProvider false [])
        [.create ⟨.counter, "c"⟩ []]).get ⟨.counter, "c"⟩).isSome) ∧
    ((assocGet (runOps (NewBasicProvider false [])
        [.create ⟨.counter, "c"⟩ []]).meta
      (MetaKey.ik ⟨.counter, "c"⟩)).isSome) :=
  ⟨by decide,
   (meta_before_instrument_invariant false [] [.create ⟨.counter, "c"⟩ []]
     ⟨.counter, "c"⟩ (by decide)).1⟩

/-- Witness for C5: recording [1.5, 2.5] into a fresh histogram yields
count 2, sum 4.0, min 1.5, max 2.5, mean 2.0. -/
theorem histogram_snapshot_aggregates_witness :
    (∀ x ∈ [F.fin (3 / 2), F.fin (5 / 2)], F.isFinite x = true) ∧
    ((([F.fin (3 / 2), F.fin (5 / 2)]).foldl BasicHistogram.Record
        ⟨0, .fin 0, .posInf, .negInf⟩).Snapshot =
      ⟨2, .fin 4, .fin (3 / 2), .fin (5 / 2), .fin 2⟩) ∧

    ((([F.fin (3 / 2), F.fin (5 / 2)]).foldl BasicHistogram.Record
        ⟨0, .fin 0, .posInf, .negInf⟩).Snapshot.Count =
      (([F.fin (3 / 2), F.fin (5 / 2)] : List F).length : Int)) :=
  by
  have h2 : Int.toNat 2 = 2 := rfl
  refine ⟨by simp [F.isFinite], ?_,
    (histogram_snapshot_aggregates (F.fin (3 / 2)) [F.fin (5 / 2)]
      (by simp [F.isFinite])).1⟩
  norm_num [List.foldl, BasicHistogram.Record, BasicHistogram.Snapshot,
    F.add, F.blt, F.divByNat, h2]

/-- C10: the histogram stored by the provider for a freshly created key
is the sentinel-initialized accumulator, and with zero values recorded
its snapshot exposes those sentinels: Count 0, Sum 0, Min +infinity,
Max -infinity, Mean 0. -/
theorem zero_count_snapshot_exposes_sentinels (p : BasicProvider) (n : String)
    (opts : List InstrumentOption)
    (h : p.get ⟨.histogram, n⟩ = none) :
    (assocGet (p.getOrCreate ⟨.histogram, n⟩ opts).1.hists
        (p.getOrCreate ⟨.histogram, n⟩ opts).2 =
      some ⟨0, .fin 0, .posInf, .negInf⟩) ∧
    (BasicHistogram.Snapshot ⟨0, .fin 0, .posInf, .negInf⟩ =
      ⟨0, .fin 0, .posInf, .negInf, .fin 0⟩) := by
  constructor
  · rw [getOrCreate_slow p _ opts h]
    exact (slowPath_fields p ⟨.histogram, n⟩ opts).2.2.2.2.2.2.2.2.2.2.2.2.1 rfl
  · decide

/-- Witness for C10 at a concrete fresh provider. -/
theorem zero_count_snapshot_exposes_sentinels_witness :
    ((NewBasicProvider false []).get ⟨.histogram, "h"⟩ = none) ∧
    (assocGet ((NewBasicProvider false []).getOrCreate ⟨.histogram, "h"⟩ []).1.hists
        ((NewBasicProvider false []).getOrCreate ⟨.histogram, "h"⟩ []).2 =
      some ⟨0, .fin 0, .posInf, .negInf⟩) :=
  ⟨by decide,
   (zero_count_snapshot_exposes_sentinels (NewBasicProvider false []) "h" []
     (by decide)).1⟩

/-- C7: for a name never created for the given kind, the corresponding
WithMeta inspection returns no instrument, an empty config and
found=false, as a normal (non-panicking) return. -/
theorem withMeta_not_found (p : BasicProvider) (n : String) :
    (assocGet p.counters n = none →
      p.CounterWithMeta n =
        .ok ((keyMu p (NewInstrumentKey .counter n)).1, none, emptyConfig, false)) ∧
    (assocGet p.updowns n = none →
      p.UpDownCounterWithMeta n =
        .ok ((keyMu p (NewInstrumentKey .updown n)).1, none, emptyConfig, false)) ∧
    (assocGet p.histograms n = none →
      p.HistogramWithMeta n =
        .ok ((keyMu p (NewInstrumentKey .histogram n)).1, none, emptyConfig, false)) := by
  refine ⟨?_, ?_, ?_⟩
  · intro h
    simp only [BasicProvider.CounterWithMeta,
      (keyMu_fields p (NewInstrumentKey .counter n)).2.2.2.1, h]
  · intro h
    simp only [BasicProvider.UpDownCounterWithMeta,
      (keyMu_fields p (NewInstrumentKey .updown n)).2.2.2.2.1, h]
  · intro h
    simp only [BasicProvider.HistogramWithMeta,
      (keyMu_fields p (NewInstrumentKey .histogram n)).2.2.2.2.2.1, h]

/-- Witness for C7 on a fresh provider and the name "never_created". -/
theorem withMeta_not_found_witness :
    (assocGet (NewBasicProvider false []).counters "never_created" = none) ∧
    ((NewBasicProvider false []).CounterWithMeta "never_created" =
      .ok ((keyMu (NewBasicProvider false [])
        (NewInstrumentKey .counter "never_created")).1, none, emptyConfig, false)) :=
  ⟨rfl,
   (withMeta_not_found (NewBasicProvider false []) "never_created").1 rfl⟩

/-- C8: a registry constructed without a logger option holds the no-op
sink, and a lenient-build invariant report on a fresh such registry
performs its single log call through that sink and returns normally —
no panic and no nil-logger dereference. -/
theorem default_logger_noop (kind : String) (key : InstrumentKey) :
    ((NewBasicProvider false []).logger = LoggerKind.noop) ∧
    (((NewBasicProvider false []).reportInvariantViolation kind key).2 =
      .ret true) ∧
    (((NewBasicProvider false []).reportInvariantViolation kind key).1.log =
      ["[metrics] invariant violation: " ++ kind ++ " for " ++ key.keyString]) := by
  refine ⟨rfl, ?_, ?_⟩ <;>
    simp [NewBasicProvider, BasicProvider.reportInvariantViolation,
      assocGet, assocStore, wrap32]

theorem copyConfig_shape (s : BasicProvider) (c : InstrumentConfig) :
    ((copyConfig s c).2.Description = c.Description) ∧
    ((copyConfig s c).2.Unit = c.Unit) ∧
    (attrContents (copyConfig s c).1 (copyConfig s c).2 = attrContents s c) ∧
    (∀ r, (copyConfig s c).2.Attributes = some r → r = s.next) ∧
    (∀ rr, rr < s.next →
      assocGet (copyConfig s c).1.attrHeap rr = assocGet s.attrHeap rr) ∧
    (s.next ≤ (copyConfig s c).1.next) := by
  unfold copyConfig
  cases hattr : c.Attributes with
  | none =>
    exact ⟨rfl, rfl, by simp [attrContents, hattr], fun r hr => by simp at hr,
      fun rr hrr => rfl, le_refl _⟩
  | some r0 =>
    by_cases hm : ((assocGet s.attrHeap r0).getD []).length = 0
    · refine ⟨by simp [hm], by simp [hm], ?_, ?_, ?_, ?_⟩
      · have hempty : (assocGet s.attrHeap r0).getD [] = [] := by
          cases hget : assocGet s.attrHeap r0 with
          | none => rfl
          | some m =>
            rw [hget] at hm
            simpa using List.length_eq_zero.mp (by simpa using hm)
        simp [hm, attrContents, hattr, hempty]
      · intro r hr
        simp [hm] at hr
      · intro rr hrr
        simp [hm]
      · simp [hm]
    · refine ⟨by simp [hm], by simp [hm], ?_, ?_, ?_, ?_⟩
      · simp [hm, attrContents, hattr, assocGet_store_self]
      · intro r hr
        simp [hm] at hr
        exact hr.symm
      · intro rr hrr
        simp only [hm, if_false]
        exact assocGet_store_other _ _ _ _ (by omega)
      · simp [hm]

theorem attrContents_congr {s s' : BasicProvider} (c : InstrumentConfig)
    (hag : ∀ rr, c.Attributes = some rr →
      assocGet s'.attrHeap rr = assocGet s.attrHeap rr) :
    attrContents s' c = attrContents s c := by
  unfold attrContents
  cases hattr : c.Attributes with
  | none => rfl
  | some r => simp [hag r hattr]

theorem copyConfig_ref_lt (s : BasicProvider) (c : InstrumentConfig) :
    ∀ r, (copyConfig s c).2.Attributes = some r → r < (copyConfig s c).1.next := by
  unfold copyConfig
  cases hattr : c.Attributes with
  | none =>
    intro r hr
    simp at hr
  | some r0 =>
    by_cases hm : ((assocGet s.attrHeap r0).getD []).length = 0
    · intro r hr
      simp [hm] at hr
    · intro r hr
      simp [hm] at hr ⊢
      omega

theorem foldl_listStep_spec (entries : List (MetaKey × MetaVal)) (n m : Nat) :
    ∀ (s : BasicProvider) (out : List InstrumentEntry),
    n ≤ s.next → m ≤ s.next →
    (∀ kv ∈ entries, ∀ c r, kv.2 = MetaVal.config c →
      c.Attributes = some r → r < n) →
    (∀ e ∈ out, ∀ r, e.Config.Attributes = some r → r < s.next) →
    (∀ e ∈ out, ∀ r, e.Config.Attributes = some r → m ≤ r) →
    ((entries.foldl listStep (s, out)).2.map
        (entryShape (entries.foldl listStep (s, out)).1) =
      out.map (entryShape s) ++ entries.filterMap (listShape s)) ∧
    (∀ e ∈ (entries.foldl listStep (s, out)).2, ∀ r,
      e.Config.Attributes = some r →
        r < (entries.foldl listStep (s, out)).1.next) ∧
    (s.next ≤ (entries.foldl listStep (s, out)).1.next) ∧
    (∀ rr, rr < s.next →
      assocGet (entries.foldl listStep (s, out)).1.attrHeap rr =
        assocGet s.attrHeap rr) ∧
    (∀ e ∈ (entries.foldl listStep (s, out)).2, ∀ r,
      e.Config.Attributes = some r → m ≤ r) := by
  induction entries with
  | nil =>
    intro s out hn hm hwf hout hlow
    exact ⟨by simp, fun e he r hr => lt_of_lt_of_le (hout e he r hr) (le_refl _),
      le_refl _, fun rr _ => rfl, hlow⟩
  | cons kv t ih =>
    intro s out hn hm hwf hout hlow
    obtain ⟨mk, mv⟩ := kv
    cases mk with
    | str ss =>
      have hstep : listStep (s, out) (MetaKey.str ss, mv) = (s, out) := by
        cases mv <;> rfl
      rw [List.foldl_cons, hstep]
      have := ih s out hn hm
        (fun kv hkv => hwf kv (List.mem_cons_of_mem _ hkv)) hout hlow
      refine ⟨?_, this.2.1, this.2.2.1, this.2.2.2.1, this.2.2.2.2⟩
      rw [this.1]
      have hfm : List.filterMap (listShape s) ((MetaKey.str ss, mv) :: t) =
          List.filterMap (listShape s) t := by
        cases mv <;> simp [listShape]
      rw [hfm]
    | ik key =>
      cases mv with
      | cell r0 =>
        rw [List.foldl_cons]
        have hstep : listStep (s, out) (MetaKey.ik key, MetaVal.cell r0) = (s, out) := rfl
        rw [hstep]
        have := ih s out hn hm
          (fun kv hkv => hwf kv (List.mem_cons_of_mem _ hkv)) hout hlow
        exact ⟨this.1, this.2.1, this.2.2.1, this.2.2.2.1, this.2.2.2.2⟩
      | str ss =>
        rw [List.foldl_cons]
        have hstep : listStep (s, out) (MetaKey.ik key, MetaVal.str ss) = (s, out) := rfl
        rw [hstep]
        have := ih s out hn hm
          (fun kv hkv => hwf kv (List.mem_cons_of_mem _ hkv)) hout hlow
        exact ⟨this.1, this.2.1, this.2.2.1, this.2.2.2.1, this.2.2.2.2⟩
      | config c =>
        rw [List.foldl_cons]
        have hstep : listStep (s, out) (MetaKey.ik key, MetaVal.config c) =
            ((copyConfig s c).1,
             out ++ [⟨key.typ, key.name, (copyConfig s c).2⟩]) := rfl
        rw [hstep]
        obtain ⟨d1, d2, d3, d4, d5, d6⟩ := copyConfig_shape s c
        have hclt := copyConfig_ref_lt s c
        have hcrefs : ∀ r, c.Attributes = some r → r < n :=
          fun r hr => hwf (MetaKey.ik key, MetaVal.config c) (by simp) c r rfl hr
        have hout' : ∀ e ∈ out ++ [⟨key.typ, key.name, (copyConfig s c).2⟩],
            ∀ r, e.Config.Attributes = some r → r < (copyConfig s c).1.next := by
          intro e he r hr
          rcases List.mem_append.mp he with h1 | h1
          · exact lt_of_lt_of_le (hout e h1 r hr) d6
          · rcases List.mem_singleton.mp h1 with rfl
            exact hclt r hr
        have hlow' : ∀ e ∈ out ++ [⟨key.typ, key.name, (copyConfig s c).2⟩],
            ∀ r, e.Config.Attributes = some r → m ≤ r := by
          intro e he r hr
          rcases List.mem_append.mp he with h1 | h1
          · exact hlow e h1 r hr
          · rcases List.mem_singleton.mp h1 with rfl
            rw [d4 r hr]
            exact hm
        have hrec := ih (copyConfig s c).1
          (out ++ [⟨key.typ, key.name, (copyConfig s c).2⟩])
          (le_trans hn d6) (le_trans hm d6)
          (fun kv hkv => hwf kv (List.mem_cons_of_mem _ hkv)) hout' hlow'
        refine ⟨?_, hrec.2.1, le_trans d6 hrec.2.2.1, ?_, hrec.2.2.2.2⟩
        · rw [hrec.1]
          have hmapcongr : out.map (entryShape (copyConfig s c).1) =
              out.map (entryShape s) := by
            refine List.map_congr_left ?_
            intro e he
            unfold entryShape
            rw [attrContents_congr e.Config
              (fun rr hrr => d5 rr (hout e he rr hrr))]
          have hecopy : entryShape (copyConfig s c).1
              ⟨key.typ, key.name, (copyConfig s c).2⟩ =
              (key.typ, key.name, c.Description, c.Unit, attrContents s c) := by
            unfold entryShape
            simp only [d1, d2, d3]
          have hfmcongr : t.filterMap (listShape (copyConfig s c).1) =
              t.filterMap (listShape s) := by
            refine List.filterMap_congr ?_
            intro kv hkv
            obtain ⟨mk', mv'⟩ := kv
            cases mk' with
            | str ss => rfl
            | ik key' =>
              cases mv' with
              | cell rr => rfl
              | str ss => rfl
              | config c' =>
                simp only [listShape]
                have : attrContents (copyConfig s c).1 c' = attrContents s c' := by
                  refine attrContents_congr c' ?_
                  intro rr hrr
                  refine d5 rr (lt_of_lt_of_le ?_ hn)
                  exact hwf (MetaKey.ik key', MetaVal.config c')
                    (List.mem_cons_of_mem _ hkv) c' rr rfl hrr
                rw [this]
          rw [List.map_append, hmapcongr, hfmcongr]
          simp only [List.map_cons, List.map_nil, List.filterMap_cons, listShape,
            hecopy]
          rw [List.append_assoc]
          rfl
        · intro rr hrr
          rw [hrec.2.2.2.1 rr (lt_of_lt_of_le hrr d6)]
          exact d5 rr hrr

theorem foldl_listStep_frame (entries : List (MetaKey × MetaVal))
    (acc : BasicProvider × List InstrumentEntry) :
    ((entries.foldl listStep acc).1.meta = acc.1.meta) ∧
    ((entries.foldl listStep acc).1.log = acc.1.log) := by
  induction entries generalizing acc with
  | nil => exact ⟨rfl, rfl⟩
  | cons kv t ih =>
    rw [List.foldl_cons]
    have hstep : (listStep acc kv).1.meta = acc.1.meta ∧
        (listStep acc kv).1.log = acc.1.log := by
      obtain ⟨mk, mv⟩ := kv
      cases mk with
      | ik key =>
        cases mv with
        | config cfg =>
          obtain ⟨-, -, -, -, -, -, hmeta, -, -, -, hlog, -⟩ :=
            copyConfig_heapOnly acc.1 cfg
          exact ⟨hmeta, hlog⟩
        | cell r => exact ⟨rfl, rfl⟩
        | str ss => exact ⟨rfl, rfl⟩
      | str ss => exact ⟨rfl, rfl⟩
    have := ih (listStep acc kv)
    exact ⟨this.1.trans hstep.1, this.2.trans hstep.2⟩

/-- C9: ListMetadata returns exactly the metadata-table entries whose key
is a well-formed InstrumentKey and whose value is a well-formed
InstrumentConfig — each with the stored kind, name, description, unit
and attribute contents, carried by a defensive copy referencing only
freshly allocated attribute maps — while entries failing the structural
check (in particular the internal violation-rate-limit counter cell)
are silently skipped: they never appear in the output, the metadata
table is unchanged, and nothing is logged. -/
theorem listMetadata_skips_malformed (p : BasicProvider)
    (hwf : ∀ kv ∈ p.meta, ∀ c r, kv.2 = MetaVal.config c →
      c.Attributes = some r → r < p.next) :
    (p.ListMetadata.2.map (entryShape p.ListMetadata.1) =
      p.meta.filterMap (listShape p)) ∧
    (∀ e ∈ p.ListMetadata.2, ∀ r, e.Config.Attributes = some r → p.next ≤ r) ∧
    (p.ListMetadata.1.meta = p.meta) ∧
    (p.ListMetadata.1.log = p.log) := by
  have h := foldl_listStep_spec p.meta p.next p.next p [] (le_refl _)
    (le_refl _) hwf (by simp) (by simp)
  have hf := foldl_listStep_frame p.meta (p, [])
  exact ⟨by simpa using h.1, h.2.2.2.2, hf.1, hf.2⟩

theorem cfgRefsBelow_sound {meta : List (MetaKey × MetaVal)} {n : Nat}
    (h : cfgRefsBelow meta n = true) :
    ∀ kv ∈ meta, ∀ c r, kv.2 = MetaVal.config c →
      c.Attributes = some r → r < n := by
  intro kv hkv c r hc hr
  have hall := List.all_eq_true.mp h kv hkv
  rw [hc] at hall
  simp only [hr] at hall
  exact of_decide_eq_true hall

/-- Witness for C9: a registry holding one good entry and the internal
rate-limit cell lists exactly the good entry. -/
theorem listMetadata_skips_malformed_witness :
    (cfgRefsBelow (runOps (NewBasicProvider false [])
        [.create ⟨.counter, "good"⟩ [.withUnit "u"],
         .report "k" ⟨.counter, "z"⟩]).meta
      (runOps (NewBasicProvider false [])
        [.create ⟨.counter, "good"⟩ [.withUnit "u"],
         .report "k" ⟨.counter, "z"⟩]).next = true) ∧
    ((runOps (NewBasicProvider false [])
        [.create ⟨.counter, "good"⟩ [.withUnit "u"],
         .report "k" ⟨.counter, "z"⟩]).ListMetadata.2.map
      (entryShape (runOps (NewBasicProvider false [])
        [.create ⟨.counter, "good"⟩ [.withUnit "u"],
         .report "k" ⟨.counter, "z"⟩]).ListMetadata.1) =
      (runOps (NewBasicProvider false [])
        [.create ⟨.counter, "good"⟩ [.withUnit "u"],
         .report "k" ⟨.counter, "z"⟩]).meta.filterMap
        (listShape (runOps (NewBasicProvider false [])
          [.create ⟨.counter, "good"⟩ [.withUnit "u"],
           .report "k" ⟨.counter, "z"⟩]))) :=
  ⟨by decide,
   (listMetadata_skips_malformed (runOps (NewBasicProvider false [])
      [.create ⟨.counter, "good"⟩ [.withUnit "u"],
       .report "k" ⟨.counter, "z"⟩])
     (cfgRefsBelow_sound (by decide))).1⟩

/-- `copyConfig` on a nonempty stored attributes map: allocates a fresh
map with the same contents. -/
theorem copyConfig_some (s : BasicProvider) (c : InstrumentConfig)
    (r0 : Nat) (m : AttrMap) (hr : c.Attributes = some r0)
    (hm : assocGet s.attrHeap r0 = some m) (hne : m ≠ []) :
    copyConfig s c =
      ({ s with attrHeap := assocStore s.attrHeap s.next m, next := s.next + 1 },
       ⟨c.Description, c.Unit, some s.next⟩) := by
  unfold copyConfig
  have hlen : ¬ m.length = 0 := fun hc => hne (List.length_eq_zero.mp hc)
  simp [hr, hm, hlen]

/-- Happy path of the metadata read: instrument present and metadata a
well-formed config yield the instrument reference, a defensive config
copy and found=true. -/
theorem withMetaOf_happy (p : BasicProvider) (typ : InstrumentType)
    (name : String) (c : InstrumentConfig) (ref : Nat)
    (hmeta : assocGet p.meta (MetaKey.ik ⟨typ, name⟩) = some (.config c))
    (hinst : p.get ⟨typ, name⟩ = some ref) :
    WithMetaOf p typ name =
      .ok ((copyConfig (keyMu p ⟨typ, name⟩).1 c).1, some ref,
           (copyConfig (keyMu p ⟨typ, name⟩).1 c).2, true) := by
  have hmeta1 : assocGet (keyMu p ⟨typ, name⟩).1.meta
      (MetaKey.ik ⟨typ, name⟩) = some (.config c) := by
    rw [(keyMu_fields p ⟨typ, name⟩).2.2.2.2.2.2.1]
    exact hmeta
  cases typ with
  | counter =>
    have h1 : assocGet (keyMu p ⟨.counter, name⟩).1.counters name = some ref := by
      rw [(keyMu_fields p ⟨.counter, name⟩).2.2.2.1]
      simpa [BasicProvider.get] using hinst
    simp only [WithMetaOf, BasicProvider.CounterWithMeta, NewInstrumentKey,
      BasicProvider.getInstrumentMeta, h1, hmeta1]
  | updown =>
    have h1 : assocGet (keyMu p ⟨.updown, name⟩).1.updowns name = some ref := by
      rw [(keyMu_fields p ⟨.updown, name⟩).2.2.2.2.1]
      simpa [BasicProvider.get] using hinst
    simp only [WithMetaOf, BasicProvider.UpDownCounterWithMeta, NewInstrumentKey,
      BasicProvider.getInstrumentMeta, h1, hmeta1]
  | histogram =>
    have h1 : assocGet (keyMu p ⟨.histogram, name⟩).1.histograms name = some ref := by
      rw [(keyMu_fields p ⟨.histogram, name⟩).2.2.2.2.2.1]
      simpa [BasicProvider.get] using hinst
    simp only [WithMetaOf, BasicProvider.HistogramWithMeta, NewInstrumentKey,
      BasicProvider.getInstrumentMeta, h1, hmeta1]

/-- C4: a metadata read for a created key returns a config that is
structurally independent of registry-internal storage: the returned
attribute map is freshly allocated (at or above the registry's
allocator line, while all stored maps live below it), overwriting it
with arbitrary contents leaves the stored metadata unchanged, and a
subsequent read of the same key returns the originally stored
description, unit and attribute contents.  Stated for the WithMeta read
of every instrument kind; `ListMetadata` copies are covered by the same
`copyConfig` freshness in `listMetadata_skips_malformed`'s development. -/
theorem withMeta_defensive_copy (p : BasicProvider) (typ : InstrumentType)
    (name : String) (c : InstrumentConfig) (ref r0 : Nat) (m0 mNew : AttrMap)
    (hmeta : assocGet p.meta (MetaKey.ik ⟨typ, name⟩) = some (.config c))
    (hinst : p.get ⟨typ, name⟩ = some ref)
    (hr0 : c.Attributes = some r0) (hr0lt : r0 < p.next)
    (hm0 : assocGet p.attrHeap r0 = some m0) (hne : m0 ≠ []) :
    ∃ sA cfg1,
      (WithMetaOf p typ name = .ok (sA, some ref, cfg1, true)) ∧
      (attrContents sA cfg1 = m0) ∧
      (∀ r, cfg1.Attributes = some r → p.next ≤ r) ∧
      (assocGet (mutateConfigAttrs sA cfg1 mNew).meta (MetaKey.ik ⟨typ, name⟩)
        = some (.config c)) ∧
      (∃ sC cfg2,
        WithMetaOf (mutateConfigAttrs sA cfg1 mNew) typ name =
          .ok (sC, some ref, cfg2, true) ∧
        attrContents sC cfg2 = m0) := by
  obtain ⟨k1, k2, k3, k4, k5, k6, k7, k8, k9, k10, k11, k12⟩ :=
    keyMu_fields p ⟨typ, name⟩
  have hm0s1 : assocGet (keyMu p ⟨typ, name⟩).1.attrHeap r0 = some m0 := by
    rw [k10]
    exact hm0
  have hcc := copyConfig_some (keyMu p ⟨typ, name⟩).1 c r0 m0 hr0 hm0s1 hne
  refine ⟨(copyConfig (keyMu p ⟨typ, name⟩).1 c).1,
    (copyConfig (keyMu p ⟨typ, name⟩).1 c).2,
    withMetaOf_happy p typ name c ref hmeta hinst, ?_, ?_, ?_, ?_⟩
  · rw [hcc]
    simp [attrContents, assocGet_store_self]
  · intro r hr
    rw [hcc] at hr
    simp at hr
    rw [← hr]
    exact le_trans (le_refl _) k12
  · have hmut : mutateConfigAttrs (copyConfig (keyMu p ⟨typ, name⟩).1 c).1
        (copyConfig (keyMu p ⟨typ, name⟩).1 c).2 mNew =
        ({ (keyMu p ⟨typ, name⟩).1 with
           attrHeap := assocStore
             (assocStore (keyMu p ⟨typ, name⟩).1.attrHeap
               (keyMu p ⟨typ, name⟩).1.next m0)
             (keyMu p ⟨typ, name⟩).1.next mNew,
           next := (keyMu p ⟨typ, name⟩).1.next + 1 } : BasicProvider) := by
      rw [hcc]
      rfl
    rw [hmut]
    show assocGet (keyMu p ⟨typ, name⟩).1.meta (MetaKey.ik ⟨typ, name⟩) =
      some (MetaVal.config c)
    rw [k7]
    exact hmeta
  · have hmut : mutateConfigAttrs (copyConfig (keyMu p ⟨typ, name⟩).1 c).1
        (copyConfig (keyMu p ⟨typ, name⟩).1 c).2 mNew =
        ({ (keyMu p ⟨typ, name⟩).1 with
           attrHeap := assocStore
             (assocStore (keyMu p ⟨typ, name⟩).1.attrHeap
               (keyMu p ⟨typ, name⟩).1.next m0)
             (keyMu p ⟨typ, name⟩).1.next mNew,
           next := (keyMu p ⟨typ, name⟩).1.next + 1 } : BasicProvider) := by
      rw [hcc]
      rfl
    rw [hmut]
    have hmetaB : assocGet ({ (keyMu p ⟨typ, name⟩).1 with
           attrHeap := assocStore
             (assocStore (keyMu p ⟨typ, name⟩).1.attrHeap
               (keyMu p ⟨typ, name⟩).1.next m0)
             (keyMu p ⟨typ, name⟩).1.next mNew,
           next := (keyMu p ⟨typ, name⟩).1.next + 1 } : BasicProvider).meta
        (MetaKey.ik ⟨typ, name⟩) = some (MetaVal.config c) := by
      show assocGet (keyMu p ⟨typ, name⟩).1.meta (MetaKey.ik ⟨typ, name⟩) =
        some (MetaVal.config c)
      rw [k7]
      exact hmeta
    have hinstB : ({ (keyMu p ⟨typ, name⟩).1 with
           attrHeap := assocStore
             (assocStore (keyMu p ⟨typ, name⟩).1.attrHeap
               (keyMu p ⟨typ, name⟩).1.next m0)
             (keyMu p ⟨typ, name⟩).1.next mNew,
           next := (keyMu p ⟨typ, name⟩).1.next + 1 } : BasicProvider).get
        ⟨typ, name⟩ = some ref := by
      rw [get_congr_tables
        (show ({ (keyMu p ⟨typ, name⟩).1 with
           attrHeap := assocStore
             (assocStore (keyMu p ⟨typ, name⟩).1.attrHeap
               (keyMu p ⟨typ, name⟩).1.next m0)
             (keyMu p ⟨typ, name⟩).1.next mNew,
           next := (keyMu p ⟨typ, name⟩).1.next + 1 } : BasicProvider).counters = p.counters from k4)
        (show ({ (keyMu p ⟨typ, name⟩).1 with
           attrHeap := assocStore
             (assocStore (keyMu p ⟨typ, name⟩).1.attrHeap
               (keyMu p ⟨typ, name⟩).1.next m0)
             (keyMu p ⟨typ, name⟩).1.next mNew,
           next := (keyMu p ⟨typ, name⟩).1.next + 1 } : BasicProvider).updowns = p.updowns from k5)
        (show ({ (keyMu p ⟨typ, name⟩).1 with
           attrHeap := assocStore
             (assocStore (keyMu p ⟨typ, name⟩).1.attrHeap
               (keyMu p ⟨typ, name⟩).1.next m0)
             (keyMu p ⟨typ, name⟩).1.next mNew,
           next := (keyMu p ⟨typ, name⟩).1.next + 1 } : BasicProvider).histograms = p.histograms from k6) ⟨typ, name⟩]
      exact hinst
    have happy2 := withMetaOf_happy _ typ name c ref hmetaB hinstB
    have hr0B : assocGet (keyMu ({ (keyMu p ⟨typ, name⟩).1 with
           attrHeap := assocStore
             (assocStore (keyMu p ⟨typ, name⟩).1.attrHeap
               (keyMu p ⟨typ, name⟩).1.next m0)
             (keyMu p ⟨typ, name⟩).1.next mNew,
           next := (keyMu p ⟨typ, name⟩).1.next + 1 } : BasicProvider)
          ⟨typ, name⟩).1.attrHeap r0 = some m0 := by
      rw [(keyMu_fields _ ⟨typ, name⟩).2.2.2.2.2.2.2.2.2.1]
      show assocGet (assocStore
        (assocStore (keyMu p ⟨typ, name⟩).1.attrHeap
          (keyMu p ⟨typ, name⟩).1.next m0)
        (keyMu p ⟨typ, name⟩).1.next mNew) r0 = some m0
      rw [assocGet_store_other _ _ _ _ (by omega),
        assocGet_store_other _ _ _ _ (by omega)]
      exact hm0s1
    have hcc2 := copyConfig_some _ c r0 m0 hr0 hr0B hne
    refine ⟨_, _, happy2, ?_⟩
    rw [hcc2]
    simp [attrContents, assocGet_store_self]

/-- Witness for C4 on a concretely created counter with attributes. -/
theorem withMeta_defensive_copy_witness :
    (assocGet (runOps (NewBasicProvider false [])
        [.create ⟨.counter, "c"⟩ [.withAttributes [("k", "v")]]]).meta
      (MetaKey.ik ⟨.counter, "c"⟩) =
        some (.config ⟨"", "", some 0⟩)) ∧
    (∃ sA cfg1,
      (WithMetaOf (runOps (NewBasicProvider false [])
          [.create ⟨.counter, "c"⟩ [.withAttributes [("k", "v")]]])
          .counter "c" = .ok (sA, some 2, cfg1, true)) ∧
      (attrContents sA cfg1 = [("k", "v")]) ∧
      (∀ r, cfg1.Attributes = some r →
        (runOps (NewBasicProvider false [])
          [.create ⟨.counter, "c"⟩ [.withAttributes [("k", "v")]]]).next ≤ r) ∧
      (assocGet (mutateConfigAttrs sA cfg1 [("k", "mut")]).meta
        (MetaKey.ik ⟨.counter, "c"⟩) = some (.config ⟨"", "", some 0⟩)) ∧
      (∃ sC cfg2,
        WithMetaOf (mutateConfigAttrs sA cfg1 [("k", "mut")]) .counter "c" =
          .ok (sC, some 2, cfg2, true) ∧
        attrContents sC cfg2 = [("k", "v")])) :=
  ⟨by decide,
   withMeta_defensive_copy (runOps (NewBasicProvider false [])
      [.create ⟨.counter, "c"⟩ [.withAttributes [("k", "v")]]])
     .counter "c" ⟨"", "", some 0⟩ 2 0 [("k", "v")] [("k", "mut")]
     (by decide) (by decide) (by decide) (by decide) (by decide) (by decide)⟩

theorem wrap32_small (x : Int) (h0 : 0 ≤ x) (h1 : x < 2 ^ 31) : wrap32 x = x := by
  unfold wrap32
  have : (x + 2 ^ 31) % 2 ^ 32 = x + 2 ^ 31 :=
    Int.emod_eq_of_lt (by omega) (by omega)
  omega

theorem rateLimitInv_mono {s : BasicProvider} {b b' : Nat} (h : RateLimitInv s b)
    (hb : b ≤ b') : RateLimitInv s b' := by
  rcases h with ⟨h1, h2⟩ | ⟨r, n, h1, h2, h3, h4, h5⟩
  · exact Or.inl ⟨h1, h2⟩
  · exact Or.inr ⟨r, n, h1, h2, h3, le_trans h4 (by omega), h5⟩

/-- In a lenient build, a report never panics. -/
theorem report_lenient_ret (p : BasicProvider) (kind : String)
    (key : InstrumentKey) (hdbg : p.debug = false) :
    ∃ logged, (p.reportInvariantViolation kind key).2 = .ret logged := by
  unfold BasicProvider.reportInvariantViolation
  rcases hres : assocGet p.meta (.ik reservedKey) with _ | mv
  · simp only [hres]
    split_ifs with h1 h2
    · exact ⟨false, rfl⟩
    · rw [hdbg] at h2
      exact absurd h2 (by simp)
    · exact ⟨true, rfl⟩
  · cases mv <;> simp only [hres] <;> split_ifs with h1 h2 <;>
      first
      | exact ⟨false, rfl⟩
      | exact ⟨true, rfl⟩
      | (rw [hdbg] at h2; exact absurd h2 (by simp))

/-- One lenient report advances the rate-limit bookkeeping: the cell is
bumped and a warning is logged exactly when the capped count has not
yet reached 10. -/
theorem report_rate_step (p : BasicProvider) (kind : String)
    (key : InstrumentKey) (b : Nat) (hdbg : p.debug = false)
    (hrl : RateLimitInv p b) (hb : (b : Int) + 1 < 2 ^ 31) :
    RateLimitInv (p.reportInvariantViolation kind key).1 (b + 1) := by
  rcases hrl with ⟨hres, hlog⟩ | ⟨r, n, hres, hcell, hn0, hnb, hlog⟩
  · unfold BasicProvider.reportInvariantViolation
    simp only [hres]
    have hc1 : (assocGet (assocStore p.cells p.next (0 : Int)) p.next).getD 0 = 0 := by
      rw [assocGet_store_self]
      rfl
    have hw : wrap32 ((assocGet (assocStore p.cells p.next (0 : Int)) p.next).getD 0 + 1)
        = 1 := by
      rw [hc1]
      exact wrap32_small 1 (by omega) (by omega)
    rw [hw]
    have h10 : ¬ ((1 : Int) > 10) := by omega
    rw [if_neg h10, hdbg]
    simp only [Bool.false_eq_true, if_false]
    refine Or.inr ⟨p.next, 1, ?_, ?_, by omega, by omega, ?_⟩
    · exact assocGet_store_self _ _ _
    · exact assocGet_store_self _ _ _
    · simp [hlog]
  · unfold BasicProvider.reportInvariantViolation
    simp only [hres]
    have hc1 : (assocGet p.cells r).getD 0 = n := by
      rw [hcell]
      rfl
    have hw : wrap32 ((assocGet p.cells r).getD 0 + 1) = n + 1 := by
      rw [hc1]
      exact wrap32_small (n + 1) (by omega) (by omega)
    rw [hw]
    by_cases h10 : (n + 1 : Int) > 10
    · rw [if_pos h10]
      refine Or.inr ⟨r, n + 1, hres, assocGet_store_self _ _ _, by omega, by omega, ?_⟩
      have hn10 : (10 : Nat) ≤ n.toNat := by omega
      rw [hlog]
      omega
    · rw [if_neg h10, hdbg]
      simp only [Bool.false_eq_true, if_false]
      refine Or.inr ⟨r, n + 1, hres, assocGet_store_self _ _ _, by omega, by omega, ?_⟩
      have hlen : (p.log ++ ["[metrics] invariant violation: " ++ kind ++ " for " ++
          key.keyString]).length = p.log.length + 1 := by simp
      rw [hlen, hlog]
      omega

/-- The miss path of the metadata read, by kind. -/
theorem withMetaOf_miss (p : BasicProvider) (typ : InstrumentType) (n : String)
    (h : p.get ⟨typ, n⟩ = none) :
    WithMetaOf p typ n = .ok ((keyMu p ⟨typ, n⟩).1, none, emptyConfig, false) := by
  cases typ with
  | counter =>
    have h1 : assocGet (keyMu p ⟨.counter, n⟩).1.counters n = none := by
      rw [(keyMu_fields p ⟨.counter, n⟩).2.2.2.1]
      simpa [BasicProvider.get] using h
    simp only [WithMetaOf, BasicProvider.CounterWithMeta, NewInstrumentKey, h1]
  | updown =>
    have h1 : assocGet (keyMu p ⟨.updown, n⟩).1.updowns n = none := by
      rw [(keyMu_fields p ⟨.updown, n⟩).2.2.2.2.1]
      simpa [BasicProvider.get] using h
    simp only [WithMetaOf, BasicProvider.UpDownCounterWithMeta, NewInstrumentKey, h1]
  | histogram =>
    have h1 : assocGet (keyMu p ⟨.histogram, n⟩).1.histograms n = none := by
      rw [(keyMu_fields p ⟨.histogram, n⟩).2.2.2.2.2.1]
      simpa [BasicProvider.get] using h
    simp only [WithMetaOf, BasicProvider.HistogramWithMeta, NewInstrumentKey, h1]

/-- Under `MetaConfigInv`, a metadata read never reports: the meta table,
the cells, the log, the instrument tables and the build flag are all
unchanged in the resulting state. -/
theorem wm_frame (p : BasicProvider) (typ : InstrumentType) (n : String)
    (hmc : MetaConfigInv p) :
    ((wmState (WithMetaOf p typ n)).meta = p.meta) ∧
    ((wmState (WithMetaOf p typ n)).cells = p.cells) ∧
    ((wmState (WithMetaOf p typ n)).log = p.log) ∧
    ((wmState (WithMetaOf p typ n)).counters = p.counters) ∧
    ((wmState (WithMetaOf p typ n)).updowns = p.updowns) ∧
    ((wmState (WithMetaOf p typ n)).histograms = p.histograms) ∧
    ((wmState (WithMetaOf p typ n)).debug = p.debug) := by
  obtain ⟨k1, k2, k3, k4, k5, k6, k7, k8, k9, k10, k11, k12⟩ :=
    keyMu_fields p ⟨typ, n⟩
  rcases hget : p.get ⟨typ, n⟩ with _ | ref
  · rw [withMetaOf_miss p typ n hget]
    exact ⟨k7, k9, k11, k4, k5, k6, k3⟩
  · obtain ⟨c, hc⟩ := hmc ⟨typ, n⟩ (by rw [hget]; rfl)
    rw [withMetaOf_happy p typ n c ref hc hget]
    obtain ⟨K1, K2, K3, K4, K5, K6, K7, K8, K9, K10, K11, K12⟩ :=
      copyConfig_heapOnly (keyMu p ⟨typ, n⟩).1 c
    exact ⟨K7.trans k7, K10.trans k9, K11.trans k11, K4.trans k4,
      K5.trans k5, K6.trans k6, K3.trans k3⟩

theorem foldl_listStep_cells (entries : List (MetaKey × MetaVal))
    (acc : BasicProvider × List InstrumentEntry) :
    (entries.foldl listStep acc).1.cells = acc.1.cells := by
  induction entries generalizing acc with
  | nil => rfl
  | cons kv t ih =>
    rw [List.foldl_cons]
    have hstep : (listStep acc kv).1.cells = acc.1.cells := by
      obtain ⟨mk, mv⟩ := kv
      cases mk with
      | ik key =>
        cases mv with
        | config cfg =>
          exact (copyConfig_heapOnly acc.1 cfg).2.2.2.2.2.2.2.2.2.1
        | cell r => rfl
        | str ss => rfl
      | str ss => rfl
    exact (ih (listStep acc kv)).trans hstep

theorem applyOp_cwm (p : BasicProvider) (n : String) :
    applyOp p (.counterWithMeta n) = wmState (WithMetaOf p .counter n) := by
  cases hr : p.CounterWithMeta n with
  | panicked s m => simp [applyOp, WithMetaOf, wmState, hr]
  | ok a =>
    obtain ⟨s, i, c, f⟩ := a
    simp [applyOp, WithMetaOf, wmState, hr]

theorem applyOp_uwm (p : BasicProvider) (n : String) :
    applyOp p (.updownWithMeta n) = wmState (WithMetaOf p .updown n) := by
  cases hr : p.UpDownCounterWithMeta n with
  | panicked s m => simp [applyOp, WithMetaOf, wmState, hr]
  | ok a =>
    obtain ⟨s, i, c, f⟩ := a
    simp [applyOp, WithMetaOf, wmState, hr]

theorem applyOp_hwm (p : BasicProvider) (n : String) :
    applyOp p (.histogramWithMeta n) = wmState (WithMetaOf p .histogram n) := by
  cases hr : p.HistogramWithMeta n with
  | panicked s m => simp [applyOp, WithMetaOf, wmState, hr]
  | ok a =>
    obtain ⟨s, i, c, f⟩ := a
    simp [applyOp, WithMetaOf, wmState, hr]

theorem C6Inv_wm (p : BasicProvider) (typ : InstrumentType) (n : String)
    (b : Nat) (hinv : C6Inv p b) :
    C6Inv (wmState (WithMetaOf p typ n)) b := by
  obtain ⟨hdbg, hres, hmc, hrl⟩ := hinv
  obtain ⟨w1, w2, w3, w4, w5, w6, w7⟩ := wm_frame p typ n hmc
  refine ⟨w7.trans hdbg, ?_, ?_, ?_⟩
  · rw [get_congr_tables w4 w5 w6]
    exact hres
  · intro key hsome
    rw [get_congr_tables w4 w5 w6] at hsome
    obtain ⟨c, hc⟩ := hmc key hsome
    exact ⟨c, by rw [w1]; exact hc⟩
  · rcases hrl with ⟨h1, h2⟩ | ⟨r, nn, h1, h2, h3, h4, h5⟩
    · exact Or.inl ⟨by rw [w1]; exact h1, by rw [w3]; exact h2⟩
    · exact Or.inr ⟨r, nn, by rw [w1]; exact h1, by rw [w2]; exact h2, h3, h4,
        by rw [w3]; exact h5⟩

theorem C6Inv_step (p : BasicProvider) (op : Op) (b : Nat) (hinv : C6Inv p b)
    (hop : ∀ opts, op ≠ .create reservedKey opts) (hb : (b : Int) + 1 < 2 ^ 31) :
    C6Inv (applyOp p op) (b + 1) := by
  obtain ⟨hdbg, hres, hmc, hrl⟩ := hinv
  cases op with
  | create key opts =>
    have hkey : key ≠ reservedKey := fun hc => (hop opts) (by rw [hc])
    show C6Inv ((p.getOrCreate key opts).1) (b + 1)
    rcases hk : p.get key with _ | v
    · rw [getOrCreate_slow p key opts hk]
      have hf := slowPath_fields p key opts
      refine ⟨hf.2.2.2.2.2.2.2.2.2.1.trans hdbg, ?_, ?_, ?_⟩
      · rw [hf.2.1 reservedKey (fun hc => hkey hc.symm)]
        exact hres
      · intro key'' hsome
        by_cases hkk : key'' = key
        · subst hkk
          exact ⟨(applyOptions p opts).2, hf.2.2.1⟩
        · rw [hf.2.1 key'' hkk] at hsome
          obtain ⟨c, hc⟩ := hmc key'' hsome
          refine ⟨c, ?_⟩
          rw [hf.2.2.2.1 (MetaKey.ik key'') (fun hc2 => hkk (MetaKey.ik.injEq _ _ ▸ hc2 ▸ rfl))]
          exact hc
      · have hmetap := hf.2.2.2.1 (MetaKey.ik reservedKey)
          (fun hc2 => hkey (by injection hc2 with h; exact h.symm))
        rcases hrl with ⟨h1, h2⟩ | ⟨r, nn, h1, h2, h3, h4, h5⟩
        · exact Or.inl ⟨by rw [hmetap]; exact h1, by rw [hf.2.2.2.2.2.1]; exact h2⟩
        · exact Or.inr ⟨r, nn, by rw [hmetap]; exact h1,
            by rw [hf.2.2.2.2.2.2.1]; exact h2, h3, by omega,
            by rw [hf.2.2.2.2.2.1]; exact h5⟩
    · rw [getOrCreate_found opts hk]
      exact ⟨hdbg, hres, hmc, rateLimitInv_mono hrl (by omega)⟩
  | counterWithMeta n =>
    rw [applyOp_cwm]
    exact C6Inv_wm p .counter n (b + 1) ⟨hdbg, hres, hmc,
      rateLimitInv_mono hrl (by omega)⟩
  | updownWithMeta n =>
    rw [applyOp_uwm]
    exact C6Inv_wm p .updown n (b + 1) ⟨hdbg, hres, hmc,
      rateLimitInv_mono hrl (by omega)⟩
  | histogramWithMeta n =>
    rw [applyOp_hwm]
    exact C6Inv_wm p .histogram n (b + 1) ⟨hdbg, hres, hmc,
      rateLimitInv_mono hrl (by omega)⟩
  | listMetadata =>
    show C6Inv (p.ListMetadata.1) (b + 1)
    have hfr := foldl_listStep_frame p.meta (p, [])
    have hcl := foldl_listStep_cells p.meta (p, [])
    obtain ⟨i1, i2, i3, i4, i5, i6, i7, i8, i9⟩ := listMetadata_inspectStep p
    refine ⟨i3.trans hdbg, ?_, ?_, ?_⟩
    · rw [get_congr_tables i4 i5 i6]
      exact hres
    · intro key hsome
      rw [get_congr_tables i4 i5 i6] at hsome
      obtain ⟨c, hc⟩ := hmc key hsome
      exact ⟨c, by rw [show p.ListMetadata.1.meta = p.meta from hfr.1]; exact hc⟩
    · rcases hrl with ⟨h1, h2⟩ | ⟨r, nn, h1, h2, h3, h4, h5⟩
      · exact Or.inl ⟨by rw [show p.ListMetadata.1.meta = p.meta from hfr.1]; exact h1,
          by rw [show p.ListMetadata.1.log = p.log from hfr.2]; exact h2⟩
      · exact Or.inr ⟨r, nn,
          by rw [show p.ListMetadata.1.meta = p.meta from hfr.1]; exact h1,
          by rw [show p.ListMetadata.1.cells = p.cells from hcl]; exact h2, h3,
          by omega,
          by rw [show p.ListMetadata.1.log = p.log from hfr.2]; exact h5⟩
  | report kind key =>
    show C6Inv ((p.reportInvariantViolation kind key).1) (b + 1)
    obtain ⟨f1, f2, f3, f4, f5, f6, f7, f8, f9, f10, f11, f12, f13⟩ :=
      report_fields p kind key
    refine ⟨f3.trans hdbg, ?_, ?_, report_rate_step p kind key b hdbg hrl hb⟩
    · rw [get_congr_tables f4 f5 f6]
      exact hres
    · intro key'' hsome
      rw [get_congr_tables f4 f5 f6] at hsome
      obtain ⟨c, hc⟩ := hmc key'' hsome
      refine ⟨c, ?_⟩
      have hkk : key'' ≠ reservedKey := by
        intro hc2
        rw [hc2] at hsome
        rw [hres] at hsome
        simp at hsome
      rw [f11 (MetaKey.ik key'') (fun hc2 => hkk (by injection hc2))]
      exact hc

theorem C6Inv_runOps (ops : List Op) (p : BasicProvider) (b : Nat)
    (hinv : C6Inv p b)
    (hno : ∀ op ∈ ops, ∀ opts, op ≠ .create reservedKey opts)
    (hb : (b : Int) + ops.length < 2 ^ 31) :
    C6Inv (runOps p ops) (b + ops.length) := by
  induction ops generalizing p b with
  | nil => simpa using hinv
  | cons op t ih =>
    have hstep := C6Inv_step p op b hinv (hno op (by simp))
      (by simp only [List.length_cons] at hb; push_cast at hb ⊢; omega)
    have := ih (applyOp p op) (b + 1) hstep
      (fun o ho opts => hno o (List.mem_cons_of_mem _ ho) opts)
      (by simp only [List.length_cons] at hb; push_cast at hb ⊢; omega)
    show C6Inv (runOps (applyOp p op) t) (b + (t.length + 1))
    have harith : b + (t.length + 1) = (b + 1) + t.length := by omega
    rw [harith]
    exact this

theorem noReservedCreate_sound {ops : List Op} (h : noReservedCreate ops = true) :
    ∀ op ∈ ops, ∀ opts, op ≠ .create reservedKey opts := by
  intro op hop opts hc
  have hall := List.all_eq_true.mp h op hop
  rw [hc] at hall
  simp at hall

/-- Counterexample to C6 as stated: once a counter named
`__invariant_counter__` has been created, the stored rate-limit cell is
overwritten by that instrument's config, the type assertion in
`reportInvariantViolation` fails forever after, and eleven lenient
reports for one and the same violation kind+key combination are all
eleven logged — more than the claimed cap of 10. -/
theorem report_rate_limit_counterexample :
    10 < ((runOps (NewBasicProvider false [])
      (Op.create reservedKey [] ::
        List.replicate 11 (Op.report "k" ⟨.counter, "y"⟩))).log.count
      "[metrics] invariant violation: k for counter:y") := by decide

/-- C6 amended: in a lenient (non-debug) build, provided no counter named
`__invariant_counter__` is ever created and the call sequence is shorter
than 2^31, at most 10 invariant reports are logged in total — the
rate-limit counter is a single global cell, so in particular each
violation kind+key combination is logged at most 10 times — and a
lenient report always returns normally, with the inspecting call
degrading to an empty config and found=false instead of crashing. -/
theorem report_rate_limit_amended (ops : List Op)
    (hno : ∀ op ∈ ops, ∀ opts, op ≠ Op.create reservedKey opts)
    (hlen : (ops.length : Int) < 2 ^ 31) :
    ((runOps (NewBasicProvider false []) ops).log.length ≤ 10) ∧
    (∀ msg, (runOps (NewBasicProvider false []) ops).log.count msg ≤ 10) ∧
    (∀ (q : BasicProvider) (kind : String) (key : InstrumentKey),
      q.debug = false →
        ∃ logged, (q.reportInvariantViolation kind key).2 =
          ReportResult.ret logged) ∧
    (∀ (q : BasicProvider) (key : InstrumentKey), q.debug = false →
      assocGet q.meta (MetaKey.ik key) = none →
        ∃ s', q.getInstrumentMeta key = .ok (s', emptyConfig, false)) := by
  have hinit : C6Inv (NewBasicProvider false []) 0 := by
    refine ⟨rfl, rfl, ?_, Or.inl ⟨rfl, rfl⟩⟩
    intro key hsome
    obtain ⟨t2, n2⟩ := key
    cases t2 <;> simp [NewBasicProvider, BasicProvider.get, assocGet] at hsome
  have hfin := C6Inv_runOps ops (NewBasicProvider false []) 0 hinit hno
    (by push_cast; omega)
  have hlog : (runOps (NewBasicProvider false []) ops).log.length ≤ 10 := by
    rcases hfin.2.2.2 with ⟨h1, h2⟩ | ⟨r, nn, h1, h2, h3, h4, h5⟩
    · omega
    · rw [h5]
      omega
  refine ⟨hlog, fun msg => le_trans (List.count_le_length _ _) hlog,
    fun q kind key hq => report_lenient_ret q kind key hq, ?_⟩
  intro q key hq hnone
  obtain ⟨logged, hret⟩ :=
    report_lenient_ret q (key.typ.typeString ++ "_meta_missing") key hq
  refine ⟨(q.reportInvariantViolation
    (key.typ.typeString ++ "_meta_missing") key).1, ?_⟩
  unfold BasicProvider.getInstrumentMeta
  simp only [hnone]
  cases hrep : q.reportInvariantViolation
      (key.typ.typeString ++ "_meta_missing") key with
  | mk s' rr =>
    rw [hrep] at hret
    cases rr with
    | panicked m => simp at hret
    | ret l => rfl

/-- Witness for the amended C6 on twelve consecutive reports. -/
theorem report_rate_limit_amended_witness :
    (noReservedCreate
      (List.replicate 12 (Op.report "k" ⟨.counter, "y"⟩)) = true) ∧
    (((List.replicate 12 (Op.report "k" ⟨.counter, "y"⟩)).length : Int)
      < 2 ^ 31) ∧
    ((runOps (NewBasicProvider false [])
      (List.replicate 12 (Op.report "k" ⟨.counter, "y"⟩))).log.length ≤ 10) :=
  ⟨by decide, by decide,
   (report_rate_limit_amended
     (List.replicate 12 (Op.report "k" ⟨.counter, "y"⟩))
     (noReservedCreate_sound (by decide)) (by decide)).1⟩
